import Mathlib

/-!
Verification development for the `pymaker` deployment module
(`pymaker/deployment.py`).

The module under study is a configuration layer: it serializes a
`DssDeployment.Config` (a record of contract handles) into a flat JSON
address book (`Config.to_dict` / `Config.to_json`) and parses such an
address book back into a `Config` (`Config.from_json`), inferring the
collateral table from key names matching the `MCD_FLIP_` pattern.

Embedding conventions:
* A contract handle in the Python code is a typed wrapper around a
  `web3` connection and an address; the only observable used by the
  serialization layer is the address, so handles are embedded as their
  address strings.  The choice of wrapper class in `from_json`
  (`DSToken` vs `DSEthToken` for gems, `DSValue`/`OSM`/`Univ2LpOSM` for
  price feeds depending on network and symbol, `GemJoin` vs `GemJoin5`
  for adapters) does not change the recorded address and is not
  modelled.
* `vat.ilk(name)` performs a chain query but returns an `Ilk` object
  whose `name` field is the passed name; only `.name` is used by this
  module, so `Ilk` is embedded as its name.
* Python `dict`s are embedded as association lists with insertion-order
  semantics: assignment (`dinsert`) overwrites the value in place for an
  existing key and appends a fresh key at the end; lookup (`dlookup`)
  finds the unique (for well-formed dicts, duplicate-free) matching key.
* `json.dumps` / `json.loads` are treated as an inverse pair on flat
  string dictionaries, so serialization is modelled at the dictionary
  level: `to_json ∘ json.loads = to_dict`, and `from_json` takes the
  parsed dictionary.
* Fallible code (Python `KeyError` on a missing address-book key, and
  the `AttributeError` raised by `to_dict` when `re.search` returns
  `None` on an ilk name without word characters) is modelled with
  `Option`: `none` means the Python call raises.
-/

set_option maxHeartbeats 1000000

namespace Pymaker

/-- An on-chain address, as the hex string stored in the address book. -/
abbrev Addr := String

/-! ### Python dictionaries as association lists -/

/-- Python `d[k]` read access (the value, if the key is present). -/
def dlookup {α : Type} : List (String × α) → String → Option α
  | [], _ => none
  | (k', v) :: m, k => if k' = k then some v else dlookup m k

/-- Python `d.keys()`, in insertion order. -/
def dkeys {α : Type} (m : List (String × α)) : List String := m.map Prod.fst

/-- Python `d[k] = v`: overwrite in place if `k` is present, append otherwise. -/
def dinsert {α : Type} : List (String × α) → String → α → List (String × α)
  | [], k, v => [(k, v)]
  | (k', v') :: m, k, v => if k' = k then (k, v) :: m else (k', v') :: dinsert m k v

/-- A parsed flat address book (the result of `json.loads` on the
configuration file): contract names mapped to addresses. -/
abbrev AB := List (String × Addr)

/-! ### The regular expressions of `deployment.py`

`_infer_collaterals_from_addresses` runs `re.search` with the patterns
`MCD_FLIP_((\w+)_\w+)` and `MCD_FLIP_(\w+)` over each key, and `to_dict`
runs `re.search` with `(\w+)(?:-\w+)?` over each ilk name.  These are
embedded directly: a left-to-right scan for the literal `MCD_FLIP_`
followed by a maximal run of word characters, with the greedy
backtracking of `(\w+)_\w+` realised as the search for the last
underscore that leaves a nonempty run of word characters on both sides.
-/

/-- Python's regex class `\w` on the character set used by address-book
names: letters, digits and underscore. -/
def isWordChar (c : Char) : Bool := c.isAlphanum || c == '_'

/-- The literal part of the collateral-key patterns. -/
def flipPat : List Char := "MCD_FLIP_".toList

/-- Greedy backtracking of `(\w+)_\w+` over the word-character run `w`:
try the split position `k = w.length - 2, …, 1` and return the first
(that is, largest) `k` with `w[k] = '_'`.  (`k` is the length of the
inner `(\w+)` group; positions `0` and `w.length - 1` are excluded
because both sides of the underscore must be nonempty.) -/
def btSplit (w : List Char) : Nat → Option Nat
  | 0 => none
  | k + 1 => if w[k + 1]? == some '_' then some (k + 1) else btSplit w k

/-- The split position chosen by the regex `MCD_FLIP_((\w+)_\w+)` on the
word run `w` following the literal, if the pattern matches there. -/
def regexSplit (w : List Char) : Option Nat := btSplit w (w.length - 2)

/-- `re.search(r'MCD_FLIP_((\w+)_\w+)', key)`, returning
`(match.group(1), match.group(2))`: scan left to right for a position
where the literal `MCD_FLIP_` is followed by a word run admitting an
internal underscore split; group 1 is the whole run, group 2 the part
before the split. -/
def searchFlip2 : List Char → Option (String × String)
  | [] => none
  | c :: rest =>
    if flipPat.isPrefixOf (c :: rest) then
      let w := ((c :: rest).drop 9).takeWhile isWordChar
      match regexSplit w with
      | some k => some (⟨w⟩, ⟨w.take k⟩)
      | none => searchFlip2 rest
    else searchFlip2 rest

/-- `re.search(r'MCD_FLIP_(\w+)', key)`, returning `match.group(1)`:
scan left to right for a position where the literal `MCD_FLIP_` is
followed by a nonempty word run; the group is that run. -/
def searchFlip1 : List Char → Option String
  | [] => none
  | c :: rest =>
    if flipPat.isPrefixOf (c :: rest) then
      let w := ((c :: rest).drop 9).takeWhile isWordChar
      if w.isEmpty then searchFlip1 rest else some ⟨w⟩
    else searchFlip1 rest

/-- The loop body of `_infer_collaterals_from_addresses` for one key:
the two-group pattern is tried first; on failure the one-group pattern
is tried; on failure the key contributes nothing. -/
def inferOne (key : String) : Option (String × String) :=
  match searchFlip2 key.toList with
  | some p => some p
  | none =>
    match searchFlip1 key.toList with
    | some g => some (g, g)
    | none => none

/-- `DssDeployment.Config._infer_collaterals_from_addresses(keys)`. -/
def infer_collaterals_from_addresses (keys : List String) : List (String × String) :=
  keys.filterMap inferOne

/-- Python `s.replace(a, b)` for single-character `a`, `b`. -/
def pyReplace (s : String) (a b : Char) : String :=
  ⟨s.data.map (fun c => if c = a then b else c)⟩

/-- `re.search(r'(\w+)(?:-\w+)?', s)` as used by `to_dict` on an ilk
name: `group(1)` is the maximal word-character run starting at the first
word character; `none` models `re.search` returning `None` (on which the
Python code raises `AttributeError`). -/
def firstWordRun : List Char → Option (List Char)
  | [] => none
  | c :: rest =>
    if isWordChar c then some ((c :: rest).takeWhile isWordChar) else firstWordRun rest

/-! ### The data model -/

/-- A collateral type identifier (`pymaker.dss.Ilk`); only its name is
used by the deployment module. -/
structure Ilk where
  name : String
deriving DecidableEq, Repr

/-- A collateral entry (`pymaker.dss.Collateral`) as used here: the ilk
plus the addresses of the gem token, the join adapter, the flip auction
contract, and the optional price feed. -/
structure Collateral where
  ilk : Ilk
  gem : Addr
  adapter : Addr
  flipper : Addr
  pip : Option Addr
deriving DecidableEq, Repr

/-- `DssDeployment.Config`: the nineteen fixed contract handles plus the
collateral table (a dict keyed by ilk name). -/
structure DssDeployment.Config where
  pause : Addr
  vat : Addr
  vow : Addr
  jug : Addr
  cat : Addr
  flapper : Addr
  flopper : Addr
  pot : Addr
  dai : Addr
  dai_join : Addr
  mkr : Addr
  spotter : Addr
  ds_chief : Addr
  esm : Addr
  end' : Addr
  proxy_registry : Addr
  dss_proxy_actions : Addr
  cdp_manager : Addr
  dsr_manager : Addr
  collaterals : List (String × Collateral)
deriving DecidableEq, Repr

namespace DssDeployment

/-- The fixed part of the dictionary literal built by `Config.to_dict`,
in source order. -/
def Config.fixedEntries (c : Config) : AB :=
  [("MCD_PAUSE", c.pause), ("MCD_VAT", c.vat), ("MCD_VOW", c.vow), ("MCD_JUG", c.jug),
   ("MCD_CAT", c.cat), ("MCD_FLAP", c.flapper), ("MCD_FLOP", c.flopper), ("MCD_POT", c.pot),
   ("MCD_DAI", c.dai), ("MCD_JOIN_DAI", c.dai_join), ("MCD_GOV", c.mkr),
   ("MCD_SPOT", c.spotter), ("MCD_ADM", c.ds_chief), ("MCD_ESM", c.esm),
   ("MCD_END", c.end'), ("PROXY_REGISTRY", c.proxy_registry),
   ("PROXY_ACTIONS_DSR", c.dss_proxy_actions), ("CDP_MANAGER", c.cdp_manager),
   ("DSR_MANAGER", c.dsr_manager)]

/-- The dict assignments performed by one iteration of the collateral
loop in `Config.to_dict`, in source order: the gem key, the `PIP_` key
when a price feed is present, then the `MCD_JOIN_` and `MCD_FLIP_`
keys.  `none` models the `AttributeError` raised when the ilk name has
no word character. -/
def collatWrites (col : Collateral) : Option (List (String × Addr)) :=
  match firstWordRun col.ilk.name.data with
  | none => none
  | some symChars =>
    let sym : String := ⟨symChars⟩
    let ilkU := pyReplace col.ilk.name '-' '_'
    some ([(sym, col.gem)] ++
      (match col.pip with
       | some p => [("PIP_" ++ sym, p)]
       | none => []) ++
      [("MCD_JOIN_" ++ ilkU, col.adapter), ("MCD_FLIP_" ++ ilkU, col.flipper)])

/-- Perform a sequence of dict assignments on `m`. -/
def applyWrites (m : AB) (ws : List (String × Addr)) : AB :=
  ws.foldl (fun acc w => dinsert acc w.1 w.2) m

/-- `DssDeployment.Config.to_dict`: the fixed dictionary literal
followed by the per-collateral assignments, iterating the collateral
dict values in insertion order. -/
def Config.to_dict (c : Config) : Option AB :=
  c.collaterals.foldlM (fun m pc => (collatWrites pc.2).map (applyWrites m)) c.fixedEntries

/-- `DssDeployment.Config.to_json`, at the dictionary level (see the
embedding conventions above). -/
def Config.to_json (c : Config) : Option AB := c.to_dict

/-- The first ten fixed handles read by `Config.from_json`, in source
evaluation order (lines 188–197 of `deployment.py`).  The reads are
grouped into two stages only to keep elaboration tractable; the order
and set of `conf[...]` accesses is exactly that of the source. -/
structure FixedA where
  pause : Addr
  vat : Addr
  vow : Addr
  jug : Addr
  cat : Addr
  dai : Addr
  dai_join : Addr
  flapper : Addr
  flopper : Addr
  pot : Addr
deriving DecidableEq, Repr

/-- The remaining nine fixed handles read by `Config.from_json`, in
source evaluation order (lines 198–206 of `deployment.py`). -/
structure FixedB where
  mkr : Addr
  spotter : Addr
  ds_chief : Addr
  esm : Addr
  end' : Addr
  proxy_registry : Addr
  dss_proxy_actions : Addr
  cdp_manager : Addr
  dsr_manager : Addr
deriving DecidableEq, Repr

/-- Stage one of the fixed-handle reads of `Config.from_json`. -/
def readFixedA (conf : AB) : Option FixedA := do
  let pause ← dlookup conf "MCD_PAUSE"
  let vat ← dlookup conf "MCD_VAT"
  let vow ← dlookup conf "MCD_VOW"
  let jug ← dlookup conf "MCD_JUG"
  let cat ← dlookup conf "MCD_CAT"
  let dai ← dlookup conf "MCD_DAI"
  let dai_join ← dlookup conf "MCD_JOIN_DAI"
  let flapper ← dlookup conf "MCD_FLAP"
  let flopper ← dlookup conf "MCD_FLOP"
  let pot ← dlookup conf "MCD_POT"
  pure (FixedA.mk pause vat vow jug cat dai dai_join flapper flopper pot)

/-- Stage two of the fixed-handle reads of `Config.from_json`. -/
def readFixedB (conf : AB) : Option FixedB := do
  let mkr ← dlookup conf "MCD_GOV"
  let spotter ← dlookup conf "MCD_SPOT"
  let ds_chief ← dlookup conf "MCD_ADM"
  let esm ← dlookup conf "MCD_ESM"
  let end' ← dlookup conf "MCD_END"
  let proxy_registry ← dlookup conf "PROXY_REGISTRY"
  let dss_proxy_actions ← dlookup conf "PROXY_ACTIONS_DSR"
  let cdp_manager ← dlookup conf "CDP_MANAGER"
  let dsr_manager ← dlookup conf "DSR_MANAGER"
  pure (FixedB.mk mkr spotter ds_chief esm end' proxy_registry dss_proxy_actions
        cdp_manager dsr_manager)

/-- The collateral loop of `Config.from_json` (lines 208–235): one
iteration per inferred `(ilk-part, symbol)` pair; the `conf[...]`
accesses happen in source evaluation order (gem, adapter, pip,
flipper), and the collateral is stored under its ilk name — the matched
group with underscores turned into hyphens — overwriting like the
Python dict assignment `collaterals[ilk.name] = collateral`. -/
def collatStep (conf : AB) (acc : List (String × Collateral)) (name : String × String) :
    Option (List (String × Collateral)) := do
  let ilkName := pyReplace name.1 '_' '-'
  let gem ← dlookup conf name.2
  let adapter ← dlookup conf ("MCD_JOIN_" ++ name.1)
  let pip ← dlookup conf ("PIP_" ++ name.2)
  let flipper ← dlookup conf ("MCD_FLIP_" ++ name.1)
  pure (dinsert acc ilkName (Collateral.mk (Ilk.mk ilkName) gem adapter flipper (some pip)))

def readCollaterals (conf : AB) : Option (List (String × Collateral)) :=
  (infer_collaterals_from_addresses (dkeys conf)).foldlM (collatStep conf)
    ([] : List (String × Collateral))

/-- `DssDeployment.Config.from_json`, taking the parsed address book.
Each `conf[...]` access is a `dlookup` whose failure (`KeyError`)
aborts. -/
def Config.from_json (conf : AB) : Option Config := do
  let a ← readFixedA conf
  let b ← readFixedB conf
  let collaterals ← readCollaterals conf
  pure (Config.mk a.pause a.vat a.vow a.jug a.cat a.flapper a.flopper a.pot a.dai a.dai_join
        b.mkr b.spotter b.ds_chief b.esm b.end' b.proxy_registry b.dss_proxy_actions
        b.cdp_manager b.dsr_manager collaterals)

/-- `DssDeployment.NETWORKS`. -/
def NETWORKS : List (String × String) := [("1", "mainnet"), ("42", "kovan")]

/-- `DssDeployment.NETWORKS.get(version, "testnet")`. -/
def networkName (version : String) : String := (dlookup NETWORKS version).getD "testnet"

/-- The address-book file consulted by `DssDeployment.from_network`
(relative to the package directory). -/
def addressesFileName (network : String) : String :=
  "config/" ++ network ++ "-addresses.json"

/-- `DssDeployment.from_network`, abstracted over the file system:
`book` maps a file name to the parsed address book it contains. -/
def from_network (book : String → AB) (network : String) : Option Config :=
  Config.from_json (book (addressesFileName network))

/-- `DssDeployment.from_node`: resolve the network name from the node's
network version, then load via `from_network`. -/
def from_node (book : String → AB) (version : String) : Option Config :=
  from_network book (networkName version)

end DssDeployment

/-- The `DssDeployment` object: `__init__` copies every handle of the
config into a field of the deployment. -/
structure DssDeployment where
  config : DssDeployment.Config
  pause : Addr
  vat : Addr
  vow : Addr
  jug : Addr
  cat : Addr
  flapper : Addr
  flopper : Addr
  pot : Addr
  dai : Addr
  dai_adapter : Addr
  mkr : Addr
  collaterals : List (String × Collateral)
  spotter : Addr
  ds_chief : Addr
  esm : Addr
  end' : Addr
  proxy_registry : Addr
  dss_proxy_actions : Addr
  cdp_manager : Addr
  dsr_manager : Addr
deriving DecidableEq, Repr

namespace DssDeployment

/-- `DssDeployment.__init__(web3, config)`, field by field in source
order (`dai_adapter` is set from `config.dai_join`). -/
def ofConfig (config : Config) : DssDeployment :=
  ⟨config, config.pause, config.vat, config.vow, config.jug, config.cat, config.flapper,
   config.flopper, config.pot, config.dai, config.dai_join, config.mkr, config.collaterals,
   config.spotter, config.ds_chief, config.esm, config.end', config.proxy_registry,
   config.dss_proxy_actions, config.cdp_manager, config.dsr_manager⟩

/-- `DssDeployment.to_json`: returns `self.config.to_json()`. -/
def to_json (d : DssDeployment) : Option AB := d.config.to_json

end DssDeployment

/-- The nineteen fixed address-book names, in the order `Config.to_dict`
writes them (`Config.from_json` reads exactly the same names). -/
def fixedNames : List String :=
  ["MCD_PAUSE", "MCD_VAT", "MCD_VOW", "MCD_JUG", "MCD_CAT", "MCD_FLAP", "MCD_FLOP", "MCD_POT",
   "MCD_DAI", "MCD_JOIN_DAI", "MCD_GOV", "MCD_SPOT", "MCD_ADM", "MCD_ESM", "MCD_END",
   "PROXY_REGISTRY", "PROXY_ACTIONS_DSR", "CDP_MANAGER", "DSR_MANAGER"]

/-- No suffix of `s` starts with the literal `MCD_FLIP_`: the scanning
searches of `_infer_collaterals_from_addresses` find nothing in `s`. -/
def noFlipOcc (s : List Char) : Prop := ∀ t : List Char, t <:+ s → ¬ flipPat.isPrefixOf t

/-! ### Specification-side definitions

These definitions follow the wording of the (amended) claims rather
than the source; the claim theorems compare the source embedding
against them. -/

/-- The split position described by the amended claim C5: the last
underscore of `w` that is neither its first nor its last character. -/
def specSplit (w : List Char) : Option Nat :=
  ((List.range w.length).filter
    (fun k => (w[k]? == some '_') && decide (0 < k) && decide (k + 2 ≤ w.length))).getLast?

/-- The suffixes of a list in left-to-right scanning order (the whole
list first). -/
def suffixesOf : List Char → List (List Char)
  | [] => [[]]
  | c :: rest => (c :: rest) :: suffixesOf rest

/-- The word-character run following the 9-character literal
`MCD_FLIP_` at the start of a suffix. -/
def wordRunAfter (t : List Char) : List Char := (t.drop 9).takeWhile isWordChar

/-- Specification-side description of the per-key collateral
inference: prefer the earliest suffix position at which `MCD_FLIP_` is
followed by a word run admitting an internal underscore split (pair =
whole run and part before the split); otherwise take the earliest
position at which `MCD_FLIP_` is followed by a nonempty word run (pair
= run twice); otherwise the key contributes nothing. -/
def specInferOne (key : String) : Option (String × String) :=
  match (suffixesOf key.data).find?
      (fun t => flipPat.isPrefixOf t && (specSplit (wordRunAfter t)).isSome) with
  | some t =>
    match specSplit (wordRunAfter t) with
    | some k => some (⟨wordRunAfter t⟩, ⟨(wordRunAfter t).take k⟩)
    | none => none
  | none =>
    match (suffixesOf key.data).find?
        (fun t => flipPat.isPrefixOf t && !(wordRunAfter t).isEmpty) with
    | some t => some (⟨wordRunAfter t⟩, ⟨wordRunAfter t⟩)
    | none => none

/-- The symbol described by claim C2: the prefix of the ilk name before
its first hyphen. -/
def symbolOf (n : String) : String := ⟨n.data.takeWhile (fun c => !(c == '-'))⟩

/-- Consistency of one parsed collateral entry with the address book,
as stated by claim C3: for some inferred `(ilk-part, symbol)` pair, the
entry's key is the hyphenated ilk part and its four handle addresses
are the book's entries at the symbol, `MCD_JOIN_`, `PIP_` and
`MCD_FLIP_` names. -/
def consistentEntry (conf : AB) (k : String) (col : Collateral) : Prop :=
  ∃ q : String × String, q ∈ infer_collaterals_from_addresses (dkeys conf) ∧
    k = pyReplace q.1 '_' '-' ∧ col.ilk = Ilk.mk k ∧
    dlookup conf q.2 = some col.gem ∧
    dlookup conf ("MCD_JOIN_" ++ q.1) = some col.adapter ∧
    (∃ p, dlookup conf ("PIP_" ++ q.2) = some p ∧ col.pip = some p) ∧
    dlookup conf ("MCD_FLIP_" ++ q.1) = some col.flipper

/-! ### Concrete instances used by witnesses and counterexamples -/

/-- A complete concrete address book: the nineteen fixed names plus one
`ETH-A` collateral. -/
def bookW : AB :=
  [("MCD_PAUSE", "0xp"), ("MCD_VAT", "0xv"), ("MCD_VOW", "0xw"), ("MCD_JUG", "0xj"),
   ("MCD_CAT", "0xc"), ("MCD_FLAP", "0xfa"), ("MCD_FLOP", "0xfo"), ("MCD_POT", "0xpo"),
   ("MCD_DAI", "0xd"), ("MCD_JOIN_DAI", "0xdj"), ("MCD_GOV", "0xm"), ("MCD_SPOT", "0xsp"),
   ("MCD_ADM", "0xadm"), ("MCD_ESM", "0xesm"), ("MCD_END", "0xend"),
   ("PROXY_REGISTRY", "0xpr"), ("PROXY_ACTIONS_DSR", "0xpa"), ("CDP_MANAGER", "0xcm"),
   ("DSR_MANAGER", "0xdm"), ("ETH", "0xg"), ("PIP_ETH", "0xpip"),
   ("MCD_JOIN_ETH_A", "0xa"), ("MCD_FLIP_ETH_A", "0xf")]

/-- `bookW` with the required name `MCD_VAT` removed. -/
def bookMissing : AB := bookW.filter (fun e => !(e.1 == "MCD_VAT"))

/-- A book in which the `MCD_FLIP_` pattern occurs in two different
keys with the same inferred ilk part (`MCD_FLIP_A` and `XMCD_FLIP_A`). -/
def book5 : AB :=
  bookW.take 19 ++ [("A", "0xg"), ("MCD_JOIN_A", "0xa"), ("PIP_A", "0xpip"),
    ("MCD_FLIP_A", "0xf"), ("XMCD_FLIP_A", "0xz")]

/-- Ilk names covered by the naming convention of claim C2: nonempty,
made of alphanumeric characters and hyphens, starting with an
alphanumeric character. -/
abbrev simpleIlkName (n : String) : Prop :=
  n.data ≠ [] ∧ (∀ ch ∈ n.data, ch.isAlphanum = true ∨ ch = '-') ∧
  (∀ ch ∈ n.data.take 1, ch.isAlphanum = true)

/-- The well-formedness hypotheses of the amended claim C2: the
collateral dict is keyed by the ilk names, the names are simple and
none is `DAI` (whose `MCD_JOIN_DAI` key would overwrite a fixed entry),
the keys are duplicate-free, and collaterals sharing a gem symbol agree
on the gem and price-feed handles (their address-book keys coincide). -/
abbrev goodCollaterals (c : DssDeployment.Config) : Prop :=
  (∀ e ∈ c.collaterals,
    e.1 = e.2.ilk.name ∧ simpleIlkName e.2.ilk.name ∧ e.2.ilk.name ≠ "DAI") ∧
  (dkeys c.collaterals).Nodup ∧
  (∀ e1 ∈ c.collaterals, ∀ e2 ∈ c.collaterals,
    symbolOf e1.2.ilk.name = symbolOf e2.2.ilk.name →
    e1.2.gem = e2.2.gem ∧ e1.2.pip = e2.2.pip)

/-- Ilk names for which the serialization round-trips: simple names
with at most one hyphen and no trailing hyphen (so the regex split of
the `MCD_FLIP_` key recovers the same symbol `to_dict` used). -/
abbrev c1IlkName (n : String) : Prop :=
  simpleIlkName n ∧ n.data.count '-' ≤ 1 ∧ n.data.getLast? ≠ some '-'

/-- The well-formedness hypotheses shared by the amended claims C1 and
C8 (claim C2's hypotheses, with the ilk names restricted to at most one
hyphen and no trailing hyphen). -/
abbrev c1Collaterals (c : DssDeployment.Config) : Prop :=
  (∀ e ∈ c.collaterals,
    e.1 = e.2.ilk.name ∧ c1IlkName e.2.ilk.name ∧ e.2.ilk.name ≠ "DAI") ∧
  (dkeys c.collaterals).Nodup ∧
  (∀ e1 ∈ c.collaterals, ∀ e2 ∈ c.collaterals,
    symbolOf e1.2.ilk.name = symbolOf e2.2.ilk.name →
    e1.2.gem = e2.2.gem ∧ e1.2.pip = e2.2.pip)

/-- Two collaterals sharing the gem symbol `ETH` but holding different
gem addresses: serializing writes the key `ETH` twice (the second wins)
and parsing gives both collaterals the second gem address. -/
def cexC1 : DssDeployment.Config :=
  DssDeployment.Config.mk "0xp" "0xv" "0xw" "0xj" "0xc" "0xfa" "0xfo" "0xpo" "0xd" "0xdj"
    "0xm" "0xsp" "0xadm" "0xesm" "0xend" "0xpr" "0xpa" "0xcm" "0xdm"
    [("ETH-A", Collateral.mk (Ilk.mk "ETH-A") "0xg1" "0xa1" "0xf1" (some "0xp1")),
     ("ETH-B", Collateral.mk (Ilk.mk "ETH-B") "0xg2" "0xa2" "0xf2" (some "0xp1"))]

/-- A config with an `ETH-A` collateral without a price feed next to an
`ETH-B` collateral with one: the `PIP_ETH` key is still written, so the
round trip does not fail. -/
def cexC8 : DssDeployment.Config :=
  DssDeployment.Config.mk "0xp" "0xv" "0xw" "0xj" "0xc" "0xfa" "0xfo" "0xpo" "0xd" "0xdj"
    "0xm" "0xsp" "0xadm" "0xesm" "0xend" "0xpr" "0xpa" "0xcm" "0xdm"
    [("ETH-A", Collateral.mk (Ilk.mk "ETH-A") "0xg" "0xa1" "0xf1" none),
     ("ETH-B", Collateral.mk (Ilk.mk "ETH-B") "0xg" "0xa2" "0xf2" (some "0xp2"))]

/-- A config with one `ETH-A` collateral without a price feed: the
round trip fails on the missing `PIP_ETH` key. -/
def cfg8 : DssDeployment.Config :=
  DssDeployment.Config.mk "0xp" "0xv" "0xw" "0xj" "0xc" "0xfa" "0xfo" "0xpo" "0xd" "0xdj"
    "0xm" "0xsp" "0xadm" "0xesm" "0xend" "0xpr" "0xpa" "0xcm" "0xdm"
    [("ETH-A", Collateral.mk (Ilk.mk "ETH-A") "0xg" "0xa1" "0xf1" none)]

/-- All dict assignments performed by the collateral loop of
`Config.to_dict`, in order (empty for a collateral on which the loop
would raise). -/
def allWrites : List (String × Collateral) → List (String × Addr)
  | [] => []
  | pc :: cols => (DssDeployment.collatWrites pc.2).getD [] ++ allWrites cols

/-- The value of the last assignment to key `k` in the write sequence
`ws`, if any. -/
def lastWrite (ws : List (String × Addr)) (k : String) : Option Addr :=
  (ws.reverse.find? (fun w => w.1 == k)).map Prod.snd

/-- A config with a collateral whose ilk is named `DAI`: its
`MCD_JOIN_DAI` assignment overwrites the fixed `dai_join` entry. -/
def cexDai : DssDeployment.Config :=
  DssDeployment.Config.mk "0xp" "0xv" "0xw" "0xj" "0xc" "0xfa" "0xfo" "0xpo" "0xd" "0xdj"
    "0xm" "0xsp" "0xadm" "0xesm" "0xend" "0xpr" "0xpa" "0xcm" "0xdm"
    [("DAI", Collateral.mk (Ilk.mk "DAI") "0xg" "0xa1" "0xf" (some "0xpip"))]

/-- The collateral `Config.from_json` parses from `bookW`. -/
def colW : Collateral := Collateral.mk (Ilk.mk "ETH-A") "0xg" "0xa" "0xf" (some "0xpip")

/-- The config `Config.from_json` parses from `bookW`. -/
def cfgW : DssDeployment.Config :=
  DssDeployment.Config.mk "0xp" "0xv" "0xw" "0xj" "0xc" "0xfa" "0xfo" "0xpo" "0xd" "0xdj"
    "0xm" "0xsp" "0xadm" "0xesm" "0xend" "0xpr" "0xpa" "0xcm" "0xdm" [("ETH-A", colW)]

/-! ### Association-list (Python dict) lemmas -/

@[simp]
lemma dlookup_nil {α : Type} (k : String) : dlookup ([] : List (String × α)) k = none := rfl

lemma dlookup_cons {α : Type} (a k : String) (v : α) (m : List (String × α)) :
    dlookup ((a, v) :: m) k = if a = k then some v else dlookup m k := rfl

lemma dlookup_dinsert {α : Type} (m : List (String × α)) (k k' : String) (v : α) :
    dlookup (dinsert m k v) k' = if k = k' then some v else dlookup m k' := by
  induction m with
  | nil => by_cases h : k = k' <;> simp [dinsert, dlookup, h]
  | cons e m ih =>
    obtain ⟨a, b⟩ := e
    by_cases hak : a = k
    · subst hak
      by_cases h : a = k' <;> simp [dinsert, dlookup, h]
    · by_cases h1 : a = k' <;> by_cases h2 : k = k' <;>
        simp_all [dinsert, dlookup]

lemma dkeys_nil {α : Type} : dkeys ([] : List (String × α)) = [] := rfl

lemma dkeys_cons {α : Type} (a : String) (v : α) (m : List (String × α)) :
    dkeys ((a, v) :: m) = a :: dkeys m := rfl

lemma dkeys_dinsert {α : Type} (m : List (String × α)) (k : String) (v : α) :
    dkeys (dinsert m k v) = if k ∈ dkeys m then dkeys m else dkeys m ++ [k] := by
  induction m with
  | nil => simp [dinsert, dkeys]
  | cons e m ih =>
    obtain ⟨a, b⟩ := e
    by_cases hak : a = k
    · subst hak
      simp [dinsert, dkeys]
    · by_cases h2 : k ∈ dkeys m <;>
        simp_all [dinsert, dkeys, List.mem_cons, Ne.symm hak]

lemma mem_dinsert {α : Type} {k : String} {v : α} {e : String × α} :
    ∀ {m : List (String × α)}, e ∈ dinsert m k v → e = (k, v) ∨ e ∈ m
  | [], he => by simpa [dinsert] using he
  | (a, b) :: m, he => by
    by_cases hak : a = k
    · subst hak
      simp [dinsert, List.mem_cons] at he
      rcases he with h | h
      · exact Or.inl h
      · exact Or.inr (List.mem_cons_of_mem _ h)
    · simp only [dinsert, if_neg hak, List.mem_cons] at he
      rcases he with h | h
      · exact Or.inr (by simp [h])
      · rcases mem_dinsert h with h' | h'
        · exact Or.inl h'
        · exact Or.inr (List.mem_cons_of_mem _ h')

lemma dlookup_eq_none_iff {α : Type} (m : List (String × α)) (k : String) :
    dlookup m k = none ↔ k ∉ dkeys m := by
  induction m with
  | nil => simp [dkeys]
  | cons e m ih =>
    obtain ⟨a, b⟩ := e
    by_cases h : a = k <;> simp_all [dlookup, dkeys, List.mem_cons, eq_comm]

lemma dinsert_of_not_mem {α : Type} {m : List (String × α)} {k : String} (h : k ∉ dkeys m)
    (v : α) : dinsert m k v = m ++ [(k, v)] := by
  induction m with
  | nil => simp [dinsert]
  | cons e m ih =>
    obtain ⟨a, b⟩ := e
    simp only [dkeys, List.map_cons, List.mem_cons] at h
    push_neg at h
    simp [dinsert, Ne.symm h.1, ih h.2]

lemma nodup_dkeys_dinsert {α : Type} {m : List (String × α)} (h : (dkeys m).Nodup)
    (k : String) (v : α) : (dkeys (dinsert m k v)).Nodup := by
  rw [dkeys_dinsert]
  by_cases hk : k ∈ dkeys m
  · simpa [hk] using h
  · simp [hk, List.nodup_append, h]

/-! ### String-level facts about the generated key names -/

lemma data_append (s t : String) : (s ++ t).data = s.data ++ t.data := rfl

lemma str_data_inj {a b : String} (h : a.data = b.data) : a = b := by
  cases a
  cases b
  exact congrArg String.mk h

lemma isPrefixOf_append (l t : List Char) : l.isPrefixOf (l ++ t) = true := by
  induction l with
  | nil => simp [List.isPrefixOf]
  | cons c l ih => simp [List.isPrefixOf, ih]

lemma append_str_inj {p a b : String} (h : p ++ a = p ++ b) : a = b := by
  have hd := congrArg String.data h
  rw [data_append, data_append] at hd
  exact str_data_inj (List.append_cancel_left hd)

lemma pipKey_ne_joinKey (a b : String) : "PIP_" ++ a ≠ "MCD_JOIN_" ++ b := by
  intro h
  have hd := congrArg String.data h
  rw [data_append, data_append,
    show ("PIP_" : String).data = ['P', 'I', 'P', '_'] from rfl,
    show ("MCD_JOIN_" : String).data = ['M', 'C', 'D', '_', 'J', 'O', 'I', 'N', '_'] from rfl]
    at hd
  simp only [List.cons_append, List.cons.injEq] at hd
  exact absurd hd.1 (by decide)

lemma pipKey_ne_flipKey (a b : String) : "PIP_" ++ a ≠ "MCD_FLIP_" ++ b := by
  intro h
  have hd := congrArg String.data h
  rw [data_append, data_append,
    show ("PIP_" : String).data = ['P', 'I', 'P', '_'] from rfl,
    show ("MCD_FLIP_" : String).data = ['M', 'C', 'D', '_', 'F', 'L', 'I', 'P', '_'] from rfl]
    at hd
  simp only [List.cons_append, List.cons.injEq] at hd
  exact absurd hd.1 (by decide)

lemma joinKey_ne_flipKey (a b : String) : "MCD_JOIN_" ++ a ≠ "MCD_FLIP_" ++ b := by
  intro h
  have hd := congrArg String.data h
  rw [data_append, data_append,
    show ("MCD_JOIN_" : String).data = ['M', 'C', 'D', '_', 'J', 'O', 'I', 'N', '_'] from rfl,
    show ("MCD_FLIP_" : String).data = ['M', 'C', 'D', '_', 'F', 'L', 'I', 'P', '_'] from rfl]
    at hd
  simp only [List.cons_append, List.cons.injEq] at hd
  exact absurd hd.2.2.2.2.1 (by decide)

lemma underscore_mem_append {p : String} (hp : '_' ∈ p.data) (a : String) :
    '_' ∈ (p ++ a).data := by
  rw [data_append]
  exact List.mem_append.mpr (Or.inl hp)

lemma ne_of_no_underscore {a b : String} (ha : '_' ∉ a.data) (hb : '_' ∈ b.data) : a ≠ b :=
  fun h => ha (h ▸ hb)

lemma fixed_has_underscore : ∀ k ∈ fixedNames, '_' ∈ k.data := by decide

lemma fixed_not_pip_prefixed :
    ∀ k ∈ fixedNames, (['P', 'I', 'P', '_'].isPrefixOf k.data) = false := by decide

lemma fixed_not_flip_prefixed :
    ∀ k ∈ fixedNames,
      (['M', 'C', 'D', '_', 'F', 'L', 'I', 'P', '_'].isPrefixOf k.data) = false := by decide

lemma fixed_join_prefixed :
    ∀ k ∈ fixedNames,
      (['M', 'C', 'D', '_', 'J', 'O', 'I', 'N', '_'].isPrefixOf k.data) = true →
      k = "MCD_JOIN_DAI" := by decide

lemma pipKey_ne_fixed {a k : String} (hk : k ∈ fixedNames) : "PIP_" ++ a ≠ k := by
  intro h
  have hpre : (['P', 'I', 'P', '_'].isPrefixOf k.data) = true := by
    rw [← h, data_append, show ("PIP_" : String).data = ['P', 'I', 'P', '_'] from rfl]
    exact isPrefixOf_append _ _
  rw [fixed_not_pip_prefixed k hk] at hpre
  cases hpre

lemma flipKey_ne_fixed {a k : String} (hk : k ∈ fixedNames) : "MCD_FLIP_" ++ a ≠ k := by
  intro h
  have hpre :
      (['M', 'C', 'D', '_', 'F', 'L', 'I', 'P', '_'].isPrefixOf k.data) = true := by
    rw [← h, data_append,
      show ("MCD_FLIP_" : String).data = ['M', 'C', 'D', '_', 'F', 'L', 'I', 'P', '_']
        from rfl]
    exact isPrefixOf_append _ _
  rw [fixed_not_flip_prefixed k hk] at hpre
  cases hpre

lemma joinKey_eq_fixed {a k : String} (hk : k ∈ fixedNames) (h : "MCD_JOIN_" ++ a = k) :
    a = "DAI" := by
  have hpre :
      (['M', 'C', 'D', '_', 'J', 'O', 'I', 'N', '_'].isPrefixOf k.data) = true := by
    rw [← h, data_append,
      show ("MCD_JOIN_" : String).data = ['M', 'C', 'D', '_', 'J', 'O', 'I', 'N', '_']
        from rfl]
    exact isPrefixOf_append _ _
  have hdai := fixed_join_prefixed k hk hpre
  rw [hdai] at h
  exact append_str_inj (h.trans (show ("MCD_JOIN_DAI" : String) = "MCD_JOIN_" ++ "DAI"
    from rfl))

lemma alphanum_no_underscore {l : List Char} (h : l.all Char.isAlphanum = true) :
    '_' ∉ l :=
  fun hm => absurd (List.all_eq_true.mp h _ hm) (by decide)

lemma map_hyphen_inj :
    ∀ {l l' : List Char}, '_' ∉ l → '_' ∉ l' →
      l.map (fun c => if c = '-' then '_' else c) =
        l'.map (fun c => if c = '-' then '_' else c) → l = l'
  | [], [], _, _, _ => rfl
  | [], _ :: _, _, _, h => by simp at h
  | _ :: _, [], _, _, h => by simp at h
  | c :: l, c' :: l', h1, h2, h => by
    simp only [List.map_cons, List.cons.injEq] at h
    obtain ⟨hc, hrest⟩ := h
    have h1' : '_' ∉ l := fun hm => h1 (List.mem_cons_of_mem _ hm)
    have h2' : '_' ∉ l' := fun hm => h2 (List.mem_cons_of_mem _ hm)
    have hc1 : c ≠ '_' := fun he => h1 (he ▸ List.mem_cons_self _ _)
    have hc2 : c' ≠ '_' := fun he => h2 (he ▸ List.mem_cons_self _ _)
    have hcc : c = c' := by
      by_cases d1 : c = '-'
      · by_cases d2 : c' = '-'
        · rw [d1, d2]
        · rw [if_pos d1, if_neg d2] at hc
          exact absurd hc.symm hc2
      · by_cases d2 : c' = '-'
        · rw [if_neg d1, if_pos d2] at hc
          exact absurd hc hc1
        · rwa [if_neg d1, if_neg d2] at hc
    rw [hcc, map_hyphen_inj h1' h2' hrest]

lemma rename_inj {n n' : String} (h1 : '_' ∉ n.data) (h2 : '_' ∉ n'.data)
    (h : pyReplace n '-' '_' = pyReplace n' '-' '_') : n = n' := by
  have hd : n.data.map (fun c => if c = '-' then '_' else c) =
      n'.data.map (fun c => if c = '-' then '_' else c) := congrArg String.data h
  exact str_data_inj (map_hyphen_inj h1 h2 hd)

/-! ### Write-sequence lemmas: `to_dict` as a series of assignments -/

namespace DssDeployment

lemma applyWrites_nil (m : AB) : applyWrites m [] = m := rfl

lemma applyWrites_cons (m : AB) (w : String × Addr) (ws : List (String × Addr)) :
    applyWrites m (w :: ws) = applyWrites (dinsert m w.1 w.2) ws := rfl

lemma applyWrites_append (m : AB) (ws1 ws2 : List (String × Addr)) :
    applyWrites m (ws1 ++ ws2) = applyWrites (applyWrites m ws1) ws2 := by
  simp [applyWrites, List.foldl_append]

lemma lastWrite_cons (w : String × Addr) (ws : List (String × Addr)) (k : String) :
    lastWrite (w :: ws) k =
      match lastWrite ws k with
      | some v => some v
      | none => if w.1 = k then some w.2 else none := by
  unfold lastWrite
  rw [List.reverse_cons, List.find?_append]
  rcases hf : ws.reverse.find? (fun x => x.1 == k) with _ | x
  · by_cases hw : w.1 = k
    · have hb : (w.1 == k) = true := by simp [hw]
      simp [hf, List.find?, hb, hw]
    · have hb : (w.1 == k) = false := by simp [hw]
      simp [hf, List.find?, hb, hw]
  · simp [hf]

lemma dlookup_applyWrites :
    ∀ (ws : List (String × Addr)) (m : AB) (k : String),
      dlookup (applyWrites m ws) k =
        match lastWrite ws k with
        | some v => some v
        | none => dlookup m k
  | [], _, _ => rfl
  | w :: ws, m, k => by
    rw [applyWrites_cons, dlookup_applyWrites ws (dinsert m w.1 w.2) k, lastWrite_cons]
    rcases lastWrite ws k with _ | v
    · rw [dlookup_dinsert]
      by_cases hw : w.1 = k
      · simp [hw]
      · simp [hw]
    · rfl

lemma mem_dkeys_applyWrites :
    ∀ (ws : List (String × Addr)) (m : AB) (k : String),
      k ∈ dkeys (applyWrites m ws) ↔ k ∈ dkeys m ∨ ∃ w ∈ ws, w.1 = k
  | [], m, k => by simp [applyWrites]
  | w :: ws, m, k => by
    rw [applyWrites_cons, mem_dkeys_applyWrites ws _ k, dkeys_dinsert]
    by_cases hw : w.1 ∈ dkeys m
    · rw [if_pos hw]
      constructor
      · rintro (h | h)
        · exact Or.inl h
        · obtain ⟨x, hx, he⟩ := h
          exact Or.inr ⟨x, List.mem_cons_of_mem _ hx, he⟩
      · rintro (h | ⟨x, hx, he⟩)
        · exact Or.inl h
        · rcases List.mem_cons.mp hx with rfl | hx'
          · subst he
            exact Or.inl hw
          · exact Or.inr ⟨x, hx', he⟩
    · rw [if_neg hw]
      simp only [List.mem_append, List.mem_cons, List.mem_singleton, List.not_mem_nil,
        or_false]
      constructor
      · rintro ((h | rfl) | ⟨x, hx, he⟩)
        · exact Or.inl h
        · exact Or.inr ⟨w, Or.inl rfl, rfl⟩
        · exact Or.inr ⟨x, Or.inr hx, he⟩
      · rintro (h | ⟨x, hx, he⟩)
        · exact Or.inl (Or.inl h)
        · rcases hx with rfl | hx'
          · exact Or.inl (Or.inr he.symm)
          · exact Or.inr ⟨x, hx', he⟩

lemma lastWrite_eq_some_of {ws : List (String × Addr)} {k : String} {v : Addr}
    (hex : ∃ w ∈ ws, w.1 = k) (hval : ∀ w ∈ ws, w.1 = k → w.2 = v) :
    lastWrite ws k = some v := by
  unfold lastWrite
  rcases hf : ws.reverse.find? (fun w => w.1 == k) with _ | w
  · exfalso
    rw [List.find?_eq_none] at hf
    obtain ⟨w, hw, he⟩ := hex
    exact hf w (List.mem_reverse.mpr hw) (by simp [he])
  · have hpw := List.find?_some hf
    have hmw : w ∈ ws := List.mem_reverse.mp (List.mem_of_find?_eq_some hf)
    have hv := hval w hmw (by simpa using hpw)
    rw [hf]
    show some w.2 = some v
    rw [hv]

lemma lastWrite_eq_none_of {ws : List (String × Addr)} {k : String}
    (h : ∀ w ∈ ws, w.1 ≠ k) : lastWrite ws k = none := by
  unfold lastWrite
  rw [List.find?_eq_none.mpr (fun w hw => by
    simpa using h w (List.mem_reverse.mp hw))]
  rfl

end DssDeployment

/-! ### Simple ilk names and the write lists they generate -/

lemma takeWhile_congr' {p q : Char → Bool} :
    ∀ {l : List Char}, (∀ c ∈ l, p c = q c) → l.takeWhile p = l.takeWhile q
  | [], _ => rfl
  | c :: l, h => by
    have hc := h c (List.mem_cons_self _ _)
    by_cases hp : p c
    · rw [List.takeWhile_cons, List.takeWhile_cons, if_pos hp, if_pos (hc ▸ hp),
        takeWhile_congr' (fun c' hc' => h c' (List.mem_cons_of_mem _ hc'))]
    · rw [List.takeWhile_cons, List.takeWhile_cons, if_neg hp, if_neg (hc ▸ hp)]

lemma simple_no_underscore {n : String} (h : simpleIlkName n) : '_' ∉ n.data := by
  intro hm
  rcases h.2.1 _ hm with h' | h'
  · exact absurd h' (by decide)
  · exact absurd h' (by decide)

lemma eq_of_mem_nodup_keys {α : Type} :
    ∀ {cols : List (String × α)}, (dkeys cols).Nodup →
      ∀ {e1 e2 : String × α}, e1 ∈ cols → e2 ∈ cols → e1.1 = e2.1 → e1 = e2
  | [], _, _, _, h1, _, _ => absurd h1 (List.not_mem_nil _)
  | e :: cols, hnd, e1, e2, h1, h2, he => by
    rw [dkeys_cons, List.nodup_cons] at hnd
    rcases List.mem_cons.mp h1 with rfl | h1' <;> rcases List.mem_cons.mp h2 with rfl | h2'
    · rfl
    · exact absurd (he ▸ List.mem_map_of_mem Prod.fst h2') hnd.1
    · exact absurd (he ▸ List.mem_map_of_mem Prod.fst h1') hnd.1
    · exact eq_of_mem_nodup_keys hnd.2 h1' h2' he

lemma dropWhile_head_not {p : Char → Bool} :
    ∀ {l : List Char} {c : Char} {t : List Char}, l.dropWhile p = c :: t → p c = false
  | [], c, t, h => by simp [List.dropWhile] at h
  | c' :: l, c, t, h => by
    by_cases hp : p c'
    · rw [List.dropWhile_cons, if_pos hp] at h
      exact dropWhile_head_not h
    · rw [List.dropWhile_cons, if_neg hp] at h
      cases h
      simpa using hp

lemma map_replace_id {a b : Char} :
    ∀ {l : List Char}, (∀ ch ∈ l, ch ≠ a) → l.map (fun c => if c = a then b else c) = l
  | [], _ => rfl
  | c :: l, h => by
    rw [List.map_cons, if_neg (h c (List.mem_cons_self _ _)),
      map_replace_id (fun x hx => h x (List.mem_cons_of_mem _ hx))]

lemma replace_roundtrip_name {l : List Char} (h : '_' ∉ l) :
    (l.map (fun c => if c = '-' then '_' else c)).map (fun c => if c = '_' then '-' else c)
      = l := by
  induction l with
  | nil => rfl
  | cons c l ih =>
    have hc : c ≠ '_' := fun he => h (he ▸ List.mem_cons_self _ _)
    have ih' := ih (fun hm => h (List.mem_cons_of_mem _ hm))
    simp only [List.map_cons, ih', List.cons.injEq, and_true]
    by_cases hd : c = '-'
    · subst hd; rfl
    · rw [if_neg hd, if_neg hc]

lemma word_of_alphanum {l : List Char} (h : l.all Char.isAlphanum = true) :
    l.all isWordChar = true := by
  rw [List.all_eq_true] at h ⊢
  intro ch hch
  simp [isWordChar, h ch hch]

/-- A name satisfying `c1IlkName` is either a plain alphanumeric string
or `A-B` with `A`, `B` nonempty alphanumeric, and the symbol and
renamed forms are as expected in each case. -/
lemma c1_name_shape {n : String} (h : c1IlkName n) :
    (n.data.all Char.isAlphanum = true ∧ n.data ≠ [] ∧ (symbolOf n).data = n.data ∧
      (pyReplace n '-' '_').data = n.data) ∨
    (∃ A B : List Char, n.data = A ++ '-' :: B ∧ A ≠ [] ∧ B ≠ [] ∧
      A.all Char.isAlphanum = true ∧ B.all Char.isAlphanum = true ∧
      (symbolOf n).data = A ∧ (pyReplace n '-' '_').data = A ++ '_' :: B) := by
  obtain ⟨⟨hne, hall, hhead⟩, hcount, hlast⟩ := h
  have hsplit := List.takeWhile_append_dropWhile
    (p := fun c => !(c == '-')) (l := n.data)
  have hAall : ∀ a ∈ n.data.takeWhile (fun c => !(c == '-')), a ≠ '-' := by
    intro a ha he
    have hp := List.mem_takeWhile_imp ha
    subst he
    simp at hp
  have hAmem : ∀ a ∈ n.data.takeWhile (fun c => !(c == '-')), a ∈ n.data :=
    fun a ha => (List.takeWhile_prefix _).subset ha
  have hAalpha : (n.data.takeWhile (fun c => !(c == '-'))).all Char.isAlphanum = true := by
    rw [List.all_eq_true]
    intro a ha
    rcases hall a (hAmem a ha) with h' | h'
    · exact h'
    · exact absurd h' (hAall a ha)
  rcases hrest : n.data.dropWhile (fun c => !(c == '-')) with _ | ⟨r, B⟩
  · left
    have hAeq : n.data.takeWhile (fun c => !(c == '-')) = n.data := by
      rw [hrest, List.append_nil] at hsplit
      exact hsplit
    refine ⟨by rw [← hAeq]; exact hAalpha, hne, hAeq, ?_⟩
    show n.data.map (fun c => if c = '-' then '_' else c) = n.data
    apply map_replace_id
    intro ch hch
    exact hAall ch (hAeq.symm ▸ hch)
  · right
    have hr := dropWhile_head_not hrest
    have hrdash : r = '-' := by simpa using hr
    subst hrdash
    obtain ⟨A, hA⟩ : ∃ A, n.data.takeWhile (fun c => !(c == '-')) = A := ⟨_, rfl⟩
    rw [hA] at hAall hAalpha
    have hdata : n.data = A ++ '-' :: B := by
      conv_lhs => rw [← hsplit, hrest]
      rw [hA]
    have hAne : A ≠ [] := by
      intro hAnil
      rw [hAnil, List.nil_append] at hdata
      have hh : '-'.isAlphanum = true := by
        apply hhead
        rw [hdata]
        simp
      exact absurd hh (by decide)
    have hBdash : '-' ∉ B := by
      have hcB : B.count '-' = 0 := by
        rw [hdata, List.count_append, List.count_cons_self] at hcount
        omega
      exact List.count_eq_zero.mp hcB
    have hBalpha : B.all Char.isAlphanum = true := by
      rw [List.all_eq_true]
      intro b hb
      rcases hall b (by
        rw [hdata]
        exact List.mem_append.mpr (Or.inr (List.mem_cons_of_mem _ hb))) with h' | h'
      · exact h'
      · exact absurd (h' ▸ hb) hBdash
    have hBne : B ≠ [] := by
      intro hBnil
      rw [hBnil] at hdata
      exact hlast (by rw [hdata]; exact List.getLast?_concat _)
    have hB' : ∀ ch ∈ B, ch ≠ '-' := fun ch hch he => hBdash (he ▸ hch)
    refine ⟨A, B, hdata, hAne, hBne, hAalpha, hBalpha, hA, ?_⟩
    show n.data.map (fun c => if c = '-' then '_' else c) = A ++ '_' :: B
    rw [hdata, List.map_append, List.map_cons, if_pos rfl]
    rw [map_replace_id hAall, map_replace_id hB']

namespace DssDeployment

lemma simple_symbol_facts {n : String} (h : simpleIlkName n) :
    firstWordRun n.data = some (symbolOf n).data ∧ (symbolOf n).data ≠ [] ∧
    (symbolOf n).data.all Char.isAlphanum = true := by
  obtain ⟨hne, hall, hhead⟩ := h
  have hcong : ∀ ch ∈ n.data, isWordChar ch = !(ch == '-') := by
    intro ch hch
    rcases hall ch hch with ha | ha
    · have hne' : ch ≠ '-' := fun he => absurd (he ▸ ha) (by decide)
      simp [isWordChar, ha, hne']
    · subst ha
      decide
  have hdata : (symbolOf n).data = n.data.takeWhile (fun c => !(c == '-')) := rfl
  have hW : n.data.takeWhile isWordChar = (symbolOf n).data := by
    rw [hdata]
    exact takeWhile_congr' hcong
  rcases hd : n.data with _ | ⟨c, rest⟩
  · exact absurd hd hne
  · have hc : c.isAlphanum = true := by
      apply hhead
      rw [hd]
      simp
    have hcw : isWordChar c = true := by simp [isWordChar, hc]
    have hcd : (c == '-') = false := by
      have : c ≠ '-' := fun he => absurd (he ▸ hc) (by decide)
      simp [this]
    refine ⟨?_, ?_, ?_⟩
    · rw [show firstWordRun (c :: rest) = if isWordChar c then
          some ((c :: rest).takeWhile isWordChar) else firstWordRun rest from rfl,
        if_pos hcw, ← hd, hW]
    · rw [hdata, hd, List.takeWhile_cons, hcd]
      simp
    · rw [List.all_eq_true]
      intro ch hch
      rw [hdata] at hch
      have hmem : ch ∈ n.data := (List.takeWhile_prefix _).subset hch
      rcases hall ch hmem with ha | ha
      · exact ha
      · subst ha
        have := List.mem_takeWhile_imp hch
        simp at this

lemma collatWrites_eq {col : Collateral} (h : simpleIlkName col.ilk.name) :
    collatWrites col = some ([(symbolOf col.ilk.name, col.gem)] ++
      (match col.pip with
       | some p => [("PIP_" ++ symbolOf col.ilk.name, p)]
       | none => []) ++
      [("MCD_JOIN_" ++ pyReplace col.ilk.name '-' '_', col.adapter),
       ("MCD_FLIP_" ++ pyReplace col.ilk.name '-' '_', col.flipper)]) := by
  unfold collatWrites
  rw [(simple_symbol_facts h).1]

lemma foldlM_to_dict_writes :
    ∀ {cols : List (String × Collateral)} {m : AB},
      (∀ e ∈ cols, (collatWrites e.2).isSome) →
      cols.foldlM (fun m pc => (collatWrites pc.2).map (applyWrites m)) m =
        some (applyWrites m (allWrites cols))
  | [], m, _ => by simp [List.foldlM_nil, allWrites, applyWrites_nil]
  | pc :: cols, m, hall => by
    have hsome := hall pc (List.mem_cons_self _ _)
    rw [Option.isSome_iff_exists] at hsome
    obtain ⟨ws, hws⟩ := hsome
    rw [List.foldlM_cons, hws]
    simp only [Option.map_some', bind, Option.some_bind]
    rw [foldlM_to_dict_writes (fun e he => hall e (List.mem_cons_of_mem _ he)),
      show allWrites (pc :: cols) = ws ++ allWrites cols by
        simp [allWrites, hws],
      applyWrites_append]

/-- Under simple ilk names, `to_dict` is the fixed dictionary followed
by the whole write sequence. -/
lemma to_dict_eq {c : Config} (h : ∀ e ∈ c.collaterals, simpleIlkName e.2.ilk.name) :
    Config.to_dict c = some (applyWrites c.fixedEntries (allWrites c.collaterals)) :=
  foldlM_to_dict_writes (fun e he => by rw [collatWrites_eq (h e he)]; rfl)

lemma allWrites_cons (pc : String × Collateral) (cols : List (String × Collateral)) :
    allWrites (pc :: cols) = (collatWrites pc.2).getD [] ++ allWrites cols := rfl

/-- Every write performed by the collateral loop is a gem, `PIP_`,
`MCD_JOIN_` or `MCD_FLIP_` assignment of one of the collaterals. -/
lemma mem_allWrites :
    ∀ {cols : List (String × Collateral)},
      (∀ e ∈ cols, simpleIlkName e.2.ilk.name) → ∀ {w : String × Addr},
      w ∈ allWrites cols →
      ∃ e ∈ cols,
        w = (symbolOf e.2.ilk.name, e.2.gem) ∨
        (∃ p, e.2.pip = some p ∧ w = ("PIP_" ++ symbolOf e.2.ilk.name, p)) ∨
        w = ("MCD_JOIN_" ++ pyReplace e.2.ilk.name '-' '_', e.2.adapter) ∨
        w = ("MCD_FLIP_" ++ pyReplace e.2.ilk.name '-' '_', e.2.flipper)
  | [], _, w, hw => absurd hw (List.not_mem_nil w)
  | pc :: cols, hsimple, w, hw => by
    rw [allWrites_cons, collatWrites_eq (hsimple pc (List.mem_cons_self _ _))] at hw
    simp only [Option.getD_some] at hw
    rcases List.mem_append.mp hw with hin | hin
    · refine ⟨pc, List.mem_cons_self _ _, ?_⟩
      rcases hp : pc.2.pip with _ | p <;> rw [hp] at hin <;>
        simp only [List.append_nil, List.cons_append, List.nil_append, List.mem_cons,
          List.not_mem_nil, or_false] at hin
      · rcases hin with h | h | h
        · exact Or.inl h
        · exact Or.inr (Or.inr (Or.inl h))
        · exact Or.inr (Or.inr (Or.inr h))
      · rcases hin with h | h | h | h
        · exact Or.inl h
        · exact Or.inr (Or.inl ⟨p, rfl, h⟩)
        · exact Or.inr (Or.inr (Or.inl h))
        · exact Or.inr (Or.inr (Or.inr h))
    · obtain ⟨e, he, hcase⟩ :=
        mem_allWrites (fun e he => hsimple e (List.mem_cons_of_mem _ he)) hin
      exact ⟨e, List.mem_cons_of_mem _ he, hcase⟩

/-- The four assignments of a collateral are all in the write sequence
(the `PIP_` one when the price feed is present). -/
lemma writes_mem :
    ∀ {cols : List (String × Collateral)},
      (∀ e ∈ cols, simpleIlkName e.2.ilk.name) → ∀ {e : String × Collateral}, e ∈ cols →
      (symbolOf e.2.ilk.name, e.2.gem) ∈ allWrites cols ∧
      (∀ p, e.2.pip = some p → ("PIP_" ++ symbolOf e.2.ilk.name, p) ∈ allWrites cols) ∧
      ("MCD_JOIN_" ++ pyReplace e.2.ilk.name '-' '_', e.2.adapter) ∈ allWrites cols ∧
      ("MCD_FLIP_" ++ pyReplace e.2.ilk.name '-' '_', e.2.flipper) ∈ allWrites cols
  | [], _, e, he => absurd he (List.not_mem_nil e)
  | pc :: cols, hsimple, e, he => by
    rw [allWrites_cons, collatWrites_eq (hsimple pc (List.mem_cons_self _ _))]
    simp only [Option.getD_some]
    rcases List.mem_cons.mp he with rfl | he'
    · refine ⟨?_, ?_, ?_, ?_⟩
      · exact List.mem_append.mpr (Or.inl (by simp))
      · intro p hp
        rw [hp]
        exact List.mem_append.mpr (Or.inl (by simp))
      · exact List.mem_append.mpr (Or.inl (by simp))
      · exact List.mem_append.mpr (Or.inl (by simp))
    · obtain ⟨h1, h2, h3, h4⟩ :=
        writes_mem (fun e' he'' => hsimple e' (List.mem_cons_of_mem _ he'')) he'
      exact ⟨List.mem_append.mpr (Or.inr h1),
        fun p hp => List.mem_append.mpr (Or.inr (h2 p hp)),
        List.mem_append.mpr (Or.inr h3), List.mem_append.mpr (Or.inr h4)⟩

end DssDeployment

/-! ### Lemmas about the regular-expression embedding -/

lemma all_takeWhile (p : Char → Bool) (l : List Char) : (l.takeWhile p).all p = true := by
  induction l with
  | nil => rfl
  | cons c l ih => by_cases h : p c <;> simp [List.takeWhile, h, ih]

lemma takeWhile_eq_self {p : Char → Bool} {l : List Char} (h : l.all p = true) :
    l.takeWhile p = l := by
  induction l with
  | nil => rfl
  | cons c l ih => simp_all [List.takeWhile]

lemma all_take {p : Char → Bool} {l : List Char} (h : l.all p = true) (n : Nat) :
    (l.take n).all p = true := by
  rw [List.all_eq_true] at h ⊢
  exact fun a ha => h a (List.mem_of_mem_take ha)

lemma btSplit_eq_none {w : List Char} :
    ∀ {m : Nat}, (∀ j, 1 ≤ j → j ≤ m → w[j]? ≠ some '_') → btSplit w m = none
  | 0, _ => rfl
  | m + 1, h => by
    have hne := h (m + 1) (by omega) (le_refl _)
    have hrec : btSplit w m = none :=
      btSplit_eq_none (fun j (h1 : 1 ≤ j) (h2 : j ≤ m) => h j h1 (by omega))
    simp [btSplit, beq_iff_eq, hne, hrec]

lemma btSplit_eq_some {w : List Char} {k : Nat} (hk1 : 1 ≤ k) (hu : w[k]? = some '_') :
    ∀ {m : Nat}, k ≤ m → (∀ j, k < j → j ≤ m → w[j]? ≠ some '_') → btSplit w m = some k
  | 0, hm, _ => absurd (hk1.trans hm) (by omega)
  | m + 1, hm, h => by
    by_cases he : k = m + 1
    · subst he
      simp [btSplit, hu]
    · have hne := h (m + 1) (by omega) (le_refl _)
      simp only [btSplit, beq_iff_eq, hne, if_false]
      exact btSplit_eq_some hk1 hu (by omega)
        (fun j (h1 : k < j) (h2 : j ≤ m) => h j h1 (by omega))

lemma btSplit_some_facts {w : List Char} :
    ∀ {m k : Nat}, btSplit w m = some k →
      1 ≤ k ∧ k ≤ m ∧ w[k]? = some '_' ∧ ∀ j, k < j → j ≤ m → w[j]? ≠ some '_'
  | 0, k, h => by simp [btSplit] at h
  | m + 1, k, h => by
    by_cases hc : w[m + 1]? = some '_'
    · simp only [btSplit, beq_iff_eq, hc, if_true, Option.some.injEq] at h
      subst h
      exact ⟨by omega, le_refl _, hc, fun j h1 h2 => absurd (h1.trans_le h2) (by omega)⟩
    · simp only [btSplit, beq_iff_eq, hc, if_false] at h
      obtain ⟨f1, f2, f3, f4⟩ := btSplit_some_facts h
      refine ⟨f1, by omega, f3, fun j h1 h2 => ?_⟩
      by_cases hj : j = m + 1
      · subst hj; exact hc
      · exact f4 j h1 (by omega)

lemma regexSplit_some_facts {w : List Char} {k : Nat} (h : regexSplit w = some k) :
    1 ≤ k ∧ k + 2 ≤ w.length ∧ w[k]? = some '_' ∧
      ∀ j, k < j → j + 2 ≤ w.length → w[j]? ≠ some '_' := by
  obtain ⟨f1, f2, f3, f4⟩ := btSplit_some_facts h
  have hlt : k < w.length := by
    rcases Nat.lt_or_ge k w.length with h' | h'
    · exact h'
    · rw [List.getElem?_eq_none (by omega)] at f3
      cases f3
  refine ⟨f1, by omega, f3, fun j h1 h2 => f4 j h1 (by omega)⟩

lemma regexSplit_eq_some {w : List Char} {k : Nat} (hk1 : 1 ≤ k) (hk2 : k + 2 ≤ w.length)
    (hu : w[k]? = some '_') (hmax : ∀ j, k < j → j + 2 ≤ w.length → w[j]? ≠ some '_') :
    regexSplit w = some k :=
  btSplit_eq_some hk1 hu (by omega)
    (fun j (h1 : k < j) (h2 : j ≤ w.length - 2) => hmax j h1 (by omega))

lemma regexSplit_eq_none {w : List Char} (h : ∀ j : Nat, w[j]? ≠ some '_') :
    regexSplit w = none :=
  btSplit_eq_none (fun j (_ : 1 ≤ j) (_ : j ≤ w.length - 2) => h j)

/-- One-step unfolding of `searchFlip2` with the `let` expanded. -/
lemma searchFlip2_cons (c : Char) (rest : List Char) :
    searchFlip2 (c :: rest) =
      if flipPat.isPrefixOf (c :: rest) then
        match regexSplit (((c :: rest).drop 9).takeWhile isWordChar) with
        | some k => some (⟨((c :: rest).drop 9).takeWhile isWordChar⟩,
            ⟨(((c :: rest).drop 9).takeWhile isWordChar).take k⟩)
        | none => searchFlip2 rest
      else searchFlip2 rest := rfl

/-- One-step unfolding of `searchFlip1` with the `let` expanded. -/
lemma searchFlip1_cons (c : Char) (rest : List Char) :
    searchFlip1 (c :: rest) =
      if flipPat.isPrefixOf (c :: rest) then
        if (((c :: rest).drop 9).takeWhile isWordChar).isEmpty then searchFlip1 rest
        else some ⟨((c :: rest).drop 9).takeWhile isWordChar⟩
      else searchFlip1 rest := rfl

/-- Unfolding of `searchFlip2` on a string that starts with the
`MCD_FLIP_` literal: the pattern is tried at position 0 first. -/
lemma searchFlip2_flip (r : List Char) :
    searchFlip2 (flipPat ++ r) =
      match regexSplit (r.takeWhile isWordChar) with
      | some k => some (⟨r.takeWhile isWordChar⟩, ⟨(r.takeWhile isWordChar).take k⟩)
      | none => searchFlip2 ("CD_FLIP_".toList ++ r) := by
  show searchFlip2 ('M' :: ("CD_FLIP_".toList ++ r)) = _
  rw [searchFlip2_cons]
  rw [if_pos (show flipPat.isPrefixOf ('M' :: ("CD_FLIP_".toList ++ r)) = true from
    isPrefixOf_append flipPat r)]
  rfl

/-- Unfolding of `searchFlip1` on a string that starts with the
`MCD_FLIP_` literal. -/
lemma searchFlip1_flip (r : List Char) :
    searchFlip1 (flipPat ++ r) =
      if (r.takeWhile isWordChar).isEmpty then searchFlip1 ("CD_FLIP_".toList ++ r)
      else some ⟨r.takeWhile isWordChar⟩ := by
  show searchFlip1 ('M' :: ("CD_FLIP_".toList ++ r)) = _
  rw [searchFlip1_cons]
  rw [if_pos (show flipPat.isPrefixOf ('M' :: ("CD_FLIP_".toList ++ r)) = true from
    isPrefixOf_append flipPat r)]
  rfl

lemma searchFlip1_eq_none {s : List Char} (h : noFlipOcc s) : searchFlip1 s = none := by
  induction s with
  | nil => rfl
  | cons c rest ih =>
    rw [searchFlip1, if_neg (h (c :: rest) (List.suffix_refl _))]
    exact ih (fun t ht => h t (ht.trans (List.suffix_cons c rest)))

lemma searchFlip2_eq_none {s : List Char} (h : noFlipOcc s) : searchFlip2 s = none := by
  induction s with
  | nil => rfl
  | cons c rest ih =>
    rw [searchFlip2, if_neg (h (c :: rest) (List.suffix_refl _))]
    exact ih (fun t ht => h t (ht.trans (List.suffix_cons c rest)))

lemma searchFlip1_some_word :
    ∀ {s : List Char} {g : String}, searchFlip1 s = some g → g.data.all isWordChar = true
  | [], g, h => by simp [searchFlip1] at h
  | c :: rest, g, h => by
    rw [searchFlip1_cons] at h
    by_cases hp : flipPat.isPrefixOf (c :: rest)
    · rw [if_pos hp] at h
      by_cases hw : (((c :: rest).drop 9).takeWhile isWordChar).isEmpty
      · rw [if_pos hw] at h
        exact searchFlip1_some_word h
      · rw [if_neg hw] at h
        cases h
        exact all_takeWhile _ _
    · rw [if_neg hp] at h
      exact searchFlip1_some_word h

lemma searchFlip2_some_word :
    ∀ {s : List Char} {q : String × String}, searchFlip2 s = some q →
      q.1.data.all isWordChar = true ∧ q.2.data.all isWordChar = true
  | [], q, h => by simp [searchFlip2] at h
  | c :: rest, q, h => by
    rw [searchFlip2_cons] at h
    by_cases hp : flipPat.isPrefixOf (c :: rest)
    · rw [if_pos hp] at h
      rcases hr : regexSplit (((c :: rest).drop 9).takeWhile isWordChar) with _ | k
      · rw [hr] at h
        exact searchFlip2_some_word h
      · rw [hr] at h
        cases h
        exact ⟨all_takeWhile _ _, all_take (all_takeWhile _ _) _⟩
    · rw [if_neg hp] at h
      exact searchFlip2_some_word h

lemma inferOne_some_word {key : String} {q : String × String} (h : inferOne key = some q) :
    q.1.data.all isWordChar = true := by
  unfold inferOne at h
  rcases h2 : searchFlip2 key.toList with _ | p
  · rw [h2] at h
    rcases h1 : searchFlip1 key.toList with _ | g
    · rw [h1] at h; cases h
    · rw [h1] at h
      cases h
      exact searchFlip1_some_word h1
  · rw [h2] at h
    cases h
    exact (searchFlip2_some_word h2).1

/-! ### The scanning searches agree with the specification form -/

lemma btSplit_none_facts {w : List Char} :
    ∀ {m : Nat}, btSplit w m = none → ∀ j, 1 ≤ j → j ≤ m → w[j]? ≠ some '_'
  | 0, _, j, h1, h2 => absurd (h1.trans h2) (by omega)
  | m + 1, h, j, h1, h2 => by
    by_cases hc : w[m + 1]? = some '_'
    · simp [btSplit, hc] at h
    · simp only [btSplit, beq_iff_eq, hc, if_false] at h
      by_cases hj : j = m + 1
      · subst hj; exact hc
      · exact btSplit_none_facts h j h1 (by omega)

lemma filter_range_getLast_succ (p : Nat → Bool) (n : Nat) :
    ((List.range (n + 1)).filter p).getLast? =
      if p n then some n else ((List.range n).filter p).getLast? := by
  rw [List.range_succ, List.filter_append]
  by_cases h : p n
  · simp [List.filter, h, List.getLast?_concat]
  · simp [List.filter, h]

lemma getLast?_filter_range_eq_some {p : Nat → Bool} {k : Nat} (hk : p k = true) :
    ∀ {n : Nat}, k < n → (∀ j, k < j → j < n → p j = false) →
      ((List.range n).filter p).getLast? = some k
  | 0, h, _ => absurd h (by omega)
  | n + 1, h, hmax => by
    rw [filter_range_getLast_succ]
    by_cases he : k = n
    · subst he; simp [hk]
    · have hn : p n = false := hmax n (by omega) (by omega)
      rw [if_neg (by simp [hn])]
      exact getLast?_filter_range_eq_some hk (by omega) (fun j h1 h2 => hmax j h1 (by omega))

lemma getLast?_filter_range_eq_none {p : Nat → Bool} {n : Nat}
    (h : ∀ j, j < n → p j = false) : ((List.range n).filter p).getLast? = none := by
  have he : (List.range n).filter p = [] := by
    rw [List.filter_eq_nil_iff]
    intro a ha
    simp [h a (List.mem_range.mp ha)]
  simp [he]

/-- The greedy backtracking search coincides with the claim's
description: the last underscore that is neither the first nor the
last character. -/
lemma regexSplit_eq_specSplit (w : List Char) : regexSplit w = specSplit w := by
  rcases hb : regexSplit w with _ | k
  · have facts := btSplit_none_facts hb
    symm
    apply getLast?_filter_range_eq_none
    intro j hj
    by_cases h1 : 0 < j
    · by_cases h2 : j + 2 ≤ w.length
      · have hne := facts j (by omega) (by omega)
        simp [beq_eq_false_iff_ne, hne]
      · simp [h2]
    · simp [show j = 0 from by omega]
  · obtain ⟨f1, f2, f3, f4⟩ := regexSplit_some_facts hb
    symm
    apply getLast?_filter_range_eq_some
    · simp [f3, f2]
      omega
    · omega
    · intro j h1 h2
      by_cases hle : j + 2 ≤ w.length
      · have hne := f4 j h1 hle
        simp [beq_eq_false_iff_ne, hne, hle]
      · simp [hle]

/-- One-step unfolding of `searchFlip2`, phrased with `wordRunAfter`. -/
lemma searchFlip2_cons_run (c : Char) (rest : List Char) :
    searchFlip2 (c :: rest) =
      if flipPat.isPrefixOf (c :: rest) then
        match regexSplit (wordRunAfter (c :: rest)) with
        | some k => some (⟨wordRunAfter (c :: rest)⟩, ⟨(wordRunAfter (c :: rest)).take k⟩)
        | none => searchFlip2 rest
      else searchFlip2 rest := rfl

/-- One-step unfolding of `searchFlip1`, phrased with `wordRunAfter`. -/
lemma searchFlip1_cons_run (c : Char) (rest : List Char) :
    searchFlip1 (c :: rest) =
      if flipPat.isPrefixOf (c :: rest) then
        if (wordRunAfter (c :: rest)).isEmpty then searchFlip1 rest
        else some ⟨wordRunAfter (c :: rest)⟩
      else searchFlip1 rest := rfl

lemma searchFlip2_eq_find :
    ∀ s : List Char, searchFlip2 s =
      ((suffixesOf s).find?
          (fun t => flipPat.isPrefixOf t && (regexSplit (wordRunAfter t)).isSome)).bind
        (fun t => (regexSplit (wordRunAfter t)).map
          (fun k => ((⟨wordRunAfter t⟩ : String), (⟨(wordRunAfter t).take k⟩ : String))))
  | [] => rfl
  | c :: rest => by
    rw [searchFlip2_cons_run,
      show suffixesOf (c :: rest) = (c :: rest) :: suffixesOf rest from rfl]
    by_cases hp : flipPat.isPrefixOf (c :: rest)
    · rcases hr : regexSplit (wordRunAfter (c :: rest)) with _ | k
      · rw [List.find?_cons_of_neg _ (by simp [hr]), if_pos hp]
        exact searchFlip2_eq_find rest
      · rw [List.find?_cons_of_pos _ (by simp [hp, hr]), if_pos hp]
        simp [hr]
    · rw [List.find?_cons_of_neg _ (by simp [hp]), if_neg hp]
      exact searchFlip2_eq_find rest

lemma searchFlip1_eq_find :
    ∀ s : List Char, searchFlip1 s =
      ((suffixesOf s).find?
          (fun t => flipPat.isPrefixOf t && !(wordRunAfter t).isEmpty)).map
        (fun t => (⟨wordRunAfter t⟩ : String))
  | [] => rfl
  | c :: rest => by
    rw [searchFlip1_cons_run,
      show suffixesOf (c :: rest) = (c :: rest) :: suffixesOf rest from rfl]
    by_cases hp : flipPat.isPrefixOf (c :: rest)
    · by_cases he : (wordRunAfter (c :: rest)).isEmpty
      · rw [List.find?_cons_of_neg _ (by simp [he]), if_pos hp, if_pos he]
        exact searchFlip1_eq_find rest
      · rw [List.find?_cons_of_pos _ (by simp [hp, he]), if_pos hp, if_neg he]
        rfl
    · rw [List.find?_cons_of_neg _ (by simp [hp]), if_neg hp]
      exact searchFlip1_eq_find rest

/-- The per-key inference loop body agrees with the specification-side
description `specInferOne`. -/
lemma inferOne_eq_spec (key : String) : inferOne key = specInferOne key := by
  unfold inferOne specInferOne
  rw [show key.toList = key.data from rfl]
  rw [searchFlip2_eq_find, searchFlip1_eq_find]
  simp only [← regexSplit_eq_specSplit]
  rcases h2 : (suffixesOf key.data).find?
      (fun t => flipPat.isPrefixOf t && (regexSplit (wordRunAfter t)).isSome) with _ | t
  · rcases h1 : (suffixesOf key.data).find?
        (fun t => flipPat.isPrefixOf t && !(wordRunAfter t).isEmpty) with _ | t
    · simp
    · simp
  · have hpred := List.find?_some h2
    simp only [Bool.and_eq_true, Option.isSome_iff_exists] at hpred
    obtain ⟨_, k, hk⟩ := hpred
    simp [hk]

/-! ### Inversion lemmas for the staged reads of `Config.from_json` -/

namespace DssDeployment

lemma readFixedA_eq_some {conf : AB} {p v w j c d dj fa fo po : Addr} :
    readFixedA conf = some (FixedA.mk p v w j c d dj fa fo po) ↔
      dlookup conf "MCD_PAUSE" = some p ∧ dlookup conf "MCD_VAT" = some v ∧
      dlookup conf "MCD_VOW" = some w ∧ dlookup conf "MCD_JUG" = some j ∧
      dlookup conf "MCD_CAT" = some c ∧ dlookup conf "MCD_DAI" = some d ∧
      dlookup conf "MCD_JOIN_DAI" = some dj ∧ dlookup conf "MCD_FLAP" = some fa ∧
      dlookup conf "MCD_FLOP" = some fo ∧ dlookup conf "MCD_POT" = some po := by
  simp only [readFixedA, bind, Option.bind_eq_some, Option.pure_def, Option.some.injEq,
    FixedA.mk.injEq]
  aesop

lemma readFixedB_eq_some {conf : AB} {mk sp dc es en pr pa cm dm : Addr} :
    readFixedB conf = some (FixedB.mk mk sp dc es en pr pa cm dm) ↔
      dlookup conf "MCD_GOV" = some mk ∧ dlookup conf "MCD_SPOT" = some sp ∧
      dlookup conf "MCD_ADM" = some dc ∧ dlookup conf "MCD_ESM" = some es ∧
      dlookup conf "MCD_END" = some en ∧ dlookup conf "PROXY_REGISTRY" = some pr ∧
      dlookup conf "PROXY_ACTIONS_DSR" = some pa ∧ dlookup conf "CDP_MANAGER" = some cm ∧
      dlookup conf "DSR_MANAGER" = some dm := by
  simp only [readFixedB, bind, Option.bind_eq_some, Option.pure_def, Option.some.injEq,
    FixedB.mk.injEq]
  aesop

lemma from_json_parts {conf : AB} {c : Config} (h : Config.from_json conf = some c) :
    ∃ a b, readFixedA conf = some a ∧ readFixedB conf = some b ∧
      readCollaterals conf = some c.collaterals := by
  simp only [Config.from_json, bind, Option.bind_eq_some, Option.pure_def,
    Option.some.injEq] at h
  obtain ⟨a, ha, b, hb, cols, hcols, hmk⟩ := h
  refine ⟨a, b, ha, hb, ?_⟩
  rw [← hmk]
  exact hcols

lemma from_json_mk {conf : AB} {a : FixedA} {b : FixedB} {cols : List (String × Collateral)}
    (ha : readFixedA conf = some a) (hb : readFixedB conf = some b)
    (hc : readCollaterals conf = some cols) :
    Config.from_json conf =
      some (Config.mk a.pause a.vat a.vow a.jug a.cat a.flapper a.flopper a.pot a.dai
        a.dai_join b.mkr b.spotter b.ds_chief b.esm b.end' b.proxy_registry
        b.dss_proxy_actions b.cdp_manager b.dsr_manager cols) := by
  simp [Config.from_json, bind, ha, hb, hc]

lemma collatStep_eq_some {conf : AB} {acc res : List (String × Collateral)}
    {q : String × String} :
    collatStep conf acc q = some res ↔
      ∃ gem adapter pip flipper,
        dlookup conf q.2 = some gem ∧
        dlookup conf ("MCD_JOIN_" ++ q.1) = some adapter ∧
        dlookup conf ("PIP_" ++ q.2) = some pip ∧
        dlookup conf ("MCD_FLIP_" ++ q.1) = some flipper ∧
        res = dinsert acc (pyReplace q.1 '_' '-')
          (Collateral.mk (Ilk.mk (pyReplace q.1 '_' '-')) gem adapter flipper (some pip)) := by
  simp only [collatStep, bind, Option.bind_eq_some, Option.pure_def, Option.some.injEq]
  constructor
  · rintro ⟨gem, hg, adapter, hj, pip, hp2, flipper, hf, hres⟩
    exact ⟨gem, adapter, pip, flipper, hg, hj, hp2, hf, hres.symm⟩
  · rintro ⟨gem, adapter, pip, flipper, hg, hj, hp2, hf, hres⟩
    exact ⟨gem, hg, adapter, hj, pip, hp2, flipper, hf, hres.symm⟩

lemma collatStep_none_of {conf : AB} {q : String × String}
    (hfail : dlookup conf q.2 = none ∨ dlookup conf ("MCD_JOIN_" ++ q.1) = none ∨
      dlookup conf ("PIP_" ++ q.2) = none ∨ dlookup conf ("MCD_FLIP_" ++ q.1) = none)
    (acc : List (String × Collateral)) : collatStep conf acc q = none := by
  rcases hfail with h | h | h | h
  · simp [collatStep, bind, h]
  · cases hg : dlookup conf q.2 <;> simp [collatStep, bind, hg, h]
  · cases hg : dlookup conf q.2 <;> cases hj : dlookup conf ("MCD_JOIN_" ++ q.1) <;>
      simp [collatStep, bind, hg, hj, h]
  · cases hg : dlookup conf q.2 <;> cases hj : dlookup conf ("MCD_JOIN_" ++ q.1) <;>
      cases hp2 : dlookup conf ("PIP_" ++ q.2) <;> simp [collatStep, bind, hg, hj, hp2, h]

lemma foldlM_none_of_mem {conf : AB} {q : String × String}
    (hq : ∀ acc, collatStep conf acc q = none) :
    ∀ {pairs : List (String × String)} {acc : List (String × Collateral)}, q ∈ pairs →
      pairs.foldlM (collatStep conf) acc = none
  | [], _, hmem => absurd hmem (List.not_mem_nil q)
  | q' :: rest, acc, hmem => by
    rw [List.foldlM_cons]
    rcases List.mem_cons.mp hmem with rfl | hmem'
    · rw [hq acc]
      rfl
    · rcases hstep : collatStep conf acc q' with _ | acc'
      · rfl
      · simp only [bind, Option.some_bind]
        exact foldlM_none_of_mem hq hmem'

lemma foldlM_isSome_of_lookups {conf : AB} :
    ∀ {pairs : List (String × String)},
      (∀ q ∈ pairs, (dlookup conf q.2).isSome ∧ (dlookup conf ("MCD_JOIN_" ++ q.1)).isSome ∧
        (dlookup conf ("PIP_" ++ q.2)).isSome ∧
        (dlookup conf ("MCD_FLIP_" ++ q.1)).isSome) →
      ∀ acc : List (String × Collateral), ∃ res, pairs.foldlM (collatStep conf) acc = some res
  | [], _, acc => ⟨acc, rfl⟩
  | q :: rest, hall, acc => by
    obtain ⟨h1, h2, h3, h4⟩ := hall q (List.mem_cons_self _ _)
    rw [Option.isSome_iff_exists] at h1 h2 h3 h4
    obtain ⟨gem, hg⟩ := h1
    obtain ⟨adapter, hj⟩ := h2
    obtain ⟨pip, hp2⟩ := h3
    obtain ⟨flipper, hf⟩ := h4
    have hstep : collatStep conf acc q = some (dinsert acc (pyReplace q.1 '_' '-')
        (Collateral.mk (Ilk.mk (pyReplace q.1 '_' '-')) gem adapter flipper (some pip))) :=
      collatStep_eq_some.mpr ⟨gem, adapter, pip, flipper, hg, hj, hp2, hf, rfl⟩
    rw [List.foldlM_cons, hstep]
    simp only [bind, Option.some_bind]
    exact foldlM_isSome_of_lookups (fun q' hq' => hall q' (List.mem_cons_of_mem _ hq')) _

lemma foldlM_entries_consistent {conf : AB} :
    ∀ {pairs : List (String × String)} {acc res : List (String × Collateral)},
      (∀ q ∈ pairs, q ∈ infer_collaterals_from_addresses (dkeys conf)) →
      (∀ e ∈ acc, consistentEntry conf e.1 e.2) →
      pairs.foldlM (collatStep conf) acc = some res →
      ∀ e ∈ res, consistentEntry conf e.1 e.2
  | [], acc, res, _, hacc, h => by
    simp only [List.foldlM_nil, Option.pure_def, Option.some.injEq] at h
    subst h
    exact hacc
  | q :: rest, acc, res, hpairs, hacc, h => by
    rw [List.foldlM_cons] at h
    rcases hstep : collatStep conf acc q with _ | acc'
    · rw [hstep] at h
      simp at h
    · rw [hstep] at h
      simp only [bind, Option.some_bind] at h
      refine foldlM_entries_consistent
        (fun q' hq' => hpairs q' (List.mem_cons_of_mem _ hq')) ?_ h
      rw [collatStep_eq_some] at hstep
      obtain ⟨gem, adapter, pip, flipper, hg, hj, hp2, hf, rfl⟩ := hstep
      intro e he
      rcases mem_dinsert he with rfl | he'
      · exact ⟨q, hpairs q (List.mem_cons_self _ _), rfl, rfl, hg, hj, ⟨pip, hp2, rfl⟩, hf⟩
      · exact hacc e he'

lemma foldlM_fold_keys {conf : AB} :
    ∀ {pairs : List (String × String)} {acc res : List (String × Collateral)},
      pairs.foldlM (collatStep conf) acc = some res →
      ((dkeys acc).Nodup → (dkeys res).Nodup) ∧
      (∀ n, n ∈ dkeys res ↔ (n ∈ dkeys acc ∨ ∃ q ∈ pairs, n = pyReplace q.1 '_' '-'))
  | [], acc, res, h => by
    simp only [List.foldlM_nil, Option.pure_def, Option.some.injEq] at h
    subst h
    simp
  | q :: rest, acc, res, h => by
    rw [List.foldlM_cons] at h
    rcases hstep : collatStep conf acc q with _ | acc'
    · rw [hstep] at h
      simp at h
    · rw [hstep] at h
      simp only [bind, Option.some_bind] at h
      obtain ⟨hnd, hmem⟩ := foldlM_fold_keys h
      rw [collatStep_eq_some] at hstep
      obtain ⟨gem, adapter, pip, flipper, _, _, _, _, rfl⟩ := hstep
      constructor
      · intro hacc
        exact hnd (nodup_dkeys_dinsert hacc _ _)
      · intro n
        rw [hmem n]
        constructor
        · rintro (hin | ⟨q', hq', he⟩)
          · rw [dkeys_dinsert] at hin
            by_cases hk : pyReplace q.1 '_' '-' ∈ dkeys acc
            · rw [if_pos hk] at hin
              exact Or.inl hin
            · rw [if_neg hk] at hin
              rcases List.mem_append.mp hin with h' | h'
              · exact Or.inl h'
              · simp only [List.mem_singleton] at h'
                exact Or.inr ⟨q, List.mem_cons_self _ _, h'⟩
          · exact Or.inr ⟨q', List.mem_cons_of_mem _ hq', he⟩
        · rintro (hin | ⟨q', hq', he⟩)
          · left
            rw [dkeys_dinsert]
            by_cases hk : pyReplace q.1 '_' '-' ∈ dkeys acc
            · rw [if_pos hk]
              exact hin
            · rw [if_neg hk]
              exact List.mem_append.mpr (Or.inl hin)
          · rcases List.mem_cons.mp hq' with rfl | hq''
            · left
              rw [dkeys_dinsert]
              subst he
              by_cases hk : pyReplace q'.1 '_' '-' ∈ dkeys acc
              · rw [if_pos hk]
                exact hk
              · rw [if_neg hk]
                exact List.mem_append.mpr (Or.inr (by simp))
            · exact Or.inr ⟨q', hq'', he⟩

lemma from_json_fixed_isSome {conf : AB} {c : Config}
    (h : Config.from_json conf = some c) :
    ∀ k ∈ fixedNames, (dlookup conf k).isSome := by
  obtain ⟨a, b, ha, hb, _⟩ := from_json_parts h
  obtain ⟨pa, va, vo, ju, ca, da, dj, fa, fo, po⟩ := a
  rw [readFixedA_eq_some] at ha
  obtain ⟨h1, h2, h3, h4, h5, h6, h7, h8, h9, h10⟩ := ha
  obtain ⟨gov, sp, dc, es, en, pr, pac, cm, dm⟩ := b
  rw [readFixedB_eq_some] at hb
  obtain ⟨g1, g2, g3, g4, g5, g6, g7, g8, g9⟩ := hb
  intro k hk
  fin_cases hk <;>
    simp [h1, h2, h3, h4, h5, h6, h7, h8, h9, h10, g1, g2, g3, g4, g5, g6, g7, g8, g9]

lemma from_json_none_of_collats {conf : AB} (h : readCollaterals conf = none) :
    Config.from_json conf = none := by
  rcases ha : readFixedA conf with _ | a
  · simp [Config.from_json, bind, ha]
  · rcases hb : readFixedB conf with _ | b
    · simp [Config.from_json, bind, ha, hb]
    · simp [Config.from_json, bind, ha, hb, h]

end DssDeployment

/-! ### Claim C9: the greedy split of multi-underscore suffixes -/

/-- C9 (amended): for a key consisting of `MCD_FLIP_` followed by a
word-character run `w` on which the two-group pattern matches
(`regexSplit w = some k`), the inferred pair is `(w, w.take k)` where
`k` is the position of the *last* underscore of `w` that has at least
one word character on each side — the greedy match, not the first
underscore.  (The original claim said "at least one underscore"; an
underscore that is the first or last character of the suffix does not
admit a split, see the counterexample.) -/
theorem claim_C9 (w : List Char) (hw : w.all isWordChar = true) (k : Nat)
    (hk : regexSplit w = some k) :
    inferOne ⟨flipPat ++ w⟩ = some (⟨w⟩, ⟨w.take k⟩) ∧
    w[k]? = some '_' ∧ 0 < k ∧ k + 2 ≤ w.length ∧
    (∀ j, k < j → j + 2 ≤ w.length → w[j]? ≠ some '_') := by
  obtain ⟨f1, f2, f3, f4⟩ := regexSplit_some_facts hk
  refine ⟨?_, f3, f1, f2, f4⟩
  unfold inferOne
  rw [show (⟨flipPat ++ w⟩ : String).toList = flipPat ++ w from rfl]
  rw [searchFlip2_flip, takeWhile_eq_self hw, hk]

/-- Counterexample to C9 as stated: in `MCD_FLIP_A_` the suffix `A_`
contains an underscore, but the code does not split there (both sides
of the underscore must be nonempty); the pair is `(A_, A_)`, not
`(A_, A)`. -/
theorem claim_C9_counterexample :
    infer_collaterals_from_addresses ["MCD_FLIP_A_"] = [("A_", "A_")] ∧
    infer_collaterals_from_addresses ["MCD_FLIP_A_"] ≠ [("A_", "A")] := by decide

/-- Witness for C9 at the key `MCD_FLIP_A_B_C`: the symbol keeps every
underscore but the last, `(A_B_C, A_B)`. -/
theorem claim_C9_witness :
    ("A_B_C".toList.all isWordChar = true) ∧ regexSplit "A_B_C".toList = some 3 ∧
    inferOne ⟨flipPat ++ "A_B_C".toList⟩ = some (⟨"A_B_C".toList⟩, ⟨"A_B_C".toList.take 3⟩) :=
  ⟨by decide, by decide, (claim_C9 "A_B_C".toList (by decide) 3 (by decide)).1⟩

/-! ### Claim C10: underscore/hyphen renaming is a round trip -/

lemma replace_roundtrip_word {l : List Char} (hl : l.all isWordChar = true) :
    (l.map (fun c => if c = '_' then '-' else c)).map (fun c => if c = '-' then '_' else c)
      = l := by
  induction l with
  | nil => rfl
  | cons c l ih =>
    simp only [List.all_cons, Bool.and_eq_true] at hl
    simp only [List.map_cons, ih hl.2, List.cons.injEq, and_true]
    by_cases h1 : c = '_'
    · subst h1; rfl
    · have h2 : c ≠ '-' := by
        rintro rfl
        exact absurd hl.1 (by decide)
      simp [h1, h2]

/-- C10: every ilk-part returned by
`_infer_collaterals_from_addresses` consists of word characters, hence
contains no hyphen, so the renaming performed by `from_json`
(underscores to hyphens) followed by the renaming performed by
`to_dict` (hyphens to underscores) is the identity on it. -/
theorem claim_C10 (keys : List String) (q : String × String)
    (hq : q ∈ infer_collaterals_from_addresses keys) :
    '-' ∉ q.1.data ∧ pyReplace (pyReplace q.1 '_' '-') '-' '_' = q.1 := by
  obtain ⟨key, hkey, hone⟩ := List.mem_filterMap.mp hq
  have hword := inferOne_some_word hone
  constructor
  · intro hmem
    rw [List.all_eq_true] at hword
    exact absurd (hword _ hmem) (by decide)
  · rw [show pyReplace (pyReplace q.1 '_' '-') '-' '_' =
        ⟨(q.1.data.map (fun c => if c = '_' then '-' else c)).map
          (fun c => if c = '-' then '_' else c)⟩ from rfl]
    rw [replace_roundtrip_word hword]

/-- Witness for C10 at the single key `MCD_FLIP_ETH_A`. -/
theorem claim_C10_witness :
    ("ETH_A", "ETH") ∈ infer_collaterals_from_addresses ["MCD_FLIP_ETH_A"] ∧
    '-' ∉ ("ETH_A" : String).data ∧
    pyReplace (pyReplace "ETH_A" '_' '-') '-' '_' = "ETH_A" :=
  ⟨by decide, (claim_C10 ["MCD_FLIP_ETH_A"] ("ETH_A", "ETH") (by decide)).1,
   (claim_C10 ["MCD_FLIP_ETH_A"] ("ETH_A", "ETH") (by decide)).2⟩

/-! ### Lookup behaviour of `to_dict` under the well-formedness hypotheses -/

namespace DssDeployment

lemma good_lookups {c : Config} (hg : goodCollaterals c) :
    (∀ k ∈ fixedNames,
      dlookup (applyWrites c.fixedEntries (allWrites c.collaterals)) k =
        dlookup c.fixedEntries k) ∧
    (∀ e ∈ c.collaterals,
      dlookup (applyWrites c.fixedEntries (allWrites c.collaterals))
          (symbolOf e.2.ilk.name) = some e.2.gem ∧
      (∀ p, e.2.pip = some p →
        dlookup (applyWrites c.fixedEntries (allWrites c.collaterals))
          ("PIP_" ++ symbolOf e.2.ilk.name) = some p) ∧
      (e.2.pip = none →
        dlookup (applyWrites c.fixedEntries (allWrites c.collaterals))
          ("PIP_" ++ symbolOf e.2.ilk.name) = none) ∧
      dlookup (applyWrites c.fixedEntries (allWrites c.collaterals))
          ("MCD_JOIN_" ++ pyReplace e.2.ilk.name '-' '_') = some e.2.adapter ∧
      dlookup (applyWrites c.fixedEntries (allWrites c.collaterals))
          ("MCD_FLIP_" ++ pyReplace e.2.ilk.name '-' '_') = some e.2.flipper) := by
  obtain ⟨hprops, hnodup, hcoh⟩ := hg
  have hsimple : ∀ e ∈ c.collaterals, simpleIlkName e.2.ilk.name :=
    fun e he => (hprops e he).2.1
  constructor
  · intro k hk
    have hnone : lastWrite (allWrites c.collaterals) k = none := by
      apply lastWrite_eq_none_of
      intro w hw
      obtain ⟨e, he, hcase⟩ := mem_allWrites hsimple hw
      rcases hcase with rfl | ⟨p, _, rfl⟩ | rfl | rfl
      · exact ne_of_no_underscore
          (alphanum_no_underscore (simple_symbol_facts (hsimple e he)).2.2)
          (fixed_has_underscore k hk)
      · exact pipKey_ne_fixed hk
      · intro hjoin
        have hdai := joinKey_eq_fixed hk hjoin
        have hnu : '_' ∉ e.2.ilk.name.data := simple_no_underscore (hsimple e he)
        have hname : e.2.ilk.name = "DAI" :=
          rename_inj hnu (by decide)
            (hdai.trans (show ("DAI" : String) = pyReplace "DAI" '-' '_' by decide))
        exact absurd hname (hprops e he).2.2
      · exact flipKey_ne_fixed hk
    rw [dlookup_applyWrites, hnone]
  · intro e he
    have hsimE := hsimple e he
    have hsymU : '_' ∉ (symbolOf e.2.ilk.name).data :=
      alphanum_no_underscore (simple_symbol_facts hsimE).2.2
    have hnU : '_' ∉ e.2.ilk.name.data := simple_no_underscore hsimE
    obtain ⟨hwg, hwp, hwj, hwf⟩ := writes_mem hsimple he
    refine ⟨?_, ?_, ?_, ?_, ?_⟩
    · have hlw : lastWrite (allWrites c.collaterals) (symbolOf e.2.ilk.name) =
          some e.2.gem := by
        apply lastWrite_eq_some_of ⟨_, hwg, rfl⟩
        intro w hw hk
        obtain ⟨e', he', hcase⟩ := mem_allWrites hsimple hw
        rcases hcase with rfl | ⟨p', _, rfl⟩ | rfl | rfl
        · exact (hcoh e' he' e he hk).1
        · exact absurd hk (Ne.symm (ne_of_no_underscore hsymU
            (underscore_mem_append (by decide) _)))
        · exact absurd hk (Ne.symm (ne_of_no_underscore hsymU
            (underscore_mem_append (by decide) _)))
        · exact absurd hk (Ne.symm (ne_of_no_underscore hsymU
            (underscore_mem_append (by decide) _)))
      rw [dlookup_applyWrites, hlw]
    · intro p hp
      have hlw : lastWrite (allWrites c.collaterals) ("PIP_" ++ symbolOf e.2.ilk.name) =
          some p := by
        apply lastWrite_eq_some_of ⟨_, hwp p hp, rfl⟩
        intro w hw hk
        obtain ⟨e', he', hcase⟩ := mem_allWrites hsimple hw
        rcases hcase with rfl | ⟨p', hp', rfl⟩ | rfl | rfl
        · exact absurd hk (ne_of_no_underscore
            (alphanum_no_underscore (simple_symbol_facts (hsimple e' he')).2.2)
            (underscore_mem_append (by decide) _))
        · have hsym' := append_str_inj hk
          have hpe := (hcoh e' he' e he hsym').2
          rw [hp', hp] at hpe
          exact Option.some.inj hpe
        · exact absurd hk (Ne.symm (pipKey_ne_joinKey _ _))
        · exact absurd hk (Ne.symm (pipKey_ne_flipKey _ _))
      rw [dlookup_applyWrites, hlw]
    · intro hpnone
      have hlw : lastWrite (allWrites c.collaterals) ("PIP_" ++ symbolOf e.2.ilk.name) =
          none := by
        apply lastWrite_eq_none_of
        intro w hw
        obtain ⟨e', he', hcase⟩ := mem_allWrites hsimple hw
        rcases hcase with rfl | ⟨p', hp', rfl⟩ | rfl | rfl
        · exact ne_of_no_underscore
            (alphanum_no_underscore (simple_symbol_facts (hsimple e' he')).2.2)
            (underscore_mem_append (by decide) _)
        · intro hk
          have hsym' := append_str_inj hk
          have hpe := (hcoh e' he' e he hsym').2
          rw [hp', hpnone] at hpe
          cases hpe
        · exact Ne.symm (pipKey_ne_joinKey _ _)
        · exact Ne.symm (pipKey_ne_flipKey _ _)
      rw [dlookup_applyWrites, hlw, dlookup_eq_none_iff]
      intro hmem
      rw [show dkeys c.fixedEntries = fixedNames from rfl] at hmem
      exact absurd rfl (pipKey_ne_fixed hmem)
    · have hlw : lastWrite (allWrites c.collaterals)
          ("MCD_JOIN_" ++ pyReplace e.2.ilk.name '-' '_') = some e.2.adapter := by
        apply lastWrite_eq_some_of ⟨_, hwj, rfl⟩
        intro w hw hk
        obtain ⟨e', he', hcase⟩ := mem_allWrites hsimple hw
        rcases hcase with rfl | ⟨p', _, rfl⟩ | rfl | rfl
        · exact absurd hk (ne_of_no_underscore
            (alphanum_no_underscore (simple_symbol_facts (hsimple e' he')).2.2)
            (underscore_mem_append (by decide) _))
        · exact absurd hk (pipKey_ne_joinKey _ _)
        · have hR := append_str_inj hk
          have hname : e'.2.ilk.name = e.2.ilk.name :=
            rename_inj (simple_no_underscore (hsimple e' he')) hnU hR
          have hkey : e'.1 = e.1 := by
            rw [(hprops e' he').1, (hprops e he).1, hname]
          have hee := eq_of_mem_nodup_keys hnodup he' he hkey
          rw [hee]
        · exact absurd hk (Ne.symm (joinKey_ne_flipKey _ _))
      rw [dlookup_applyWrites, hlw]
    · have hlw : lastWrite (allWrites c.collaterals)
          ("MCD_FLIP_" ++ pyReplace e.2.ilk.name '-' '_') = some e.2.flipper := by
        apply lastWrite_eq_some_of ⟨_, hwf, rfl⟩
        intro w hw hk
        obtain ⟨e', he', hcase⟩ := mem_allWrites hsimple hw
        rcases hcase with rfl | ⟨p', _, rfl⟩ | rfl | rfl
        · exact absurd hk (ne_of_no_underscore
            (alphanum_no_underscore (simple_symbol_facts (hsimple e' he')).2.2)
            (underscore_mem_append (by decide) _))
        · exact absurd hk (pipKey_ne_flipKey _ _)
        · exact absurd hk (joinKey_ne_flipKey _ _)
        · have hR := append_str_inj hk
          have hname : e'.2.ilk.name = e.2.ilk.name :=
            rename_inj (simple_no_underscore (hsimple e' he')) hnU hR
          have hkey : e'.1 = e.1 := by
            rw [(hprops e' he').1, (hprops e he).1, hname]
          have hee := eq_of_mem_nodup_keys hnodup he' he hkey
          rw [hee]
      rw [dlookup_applyWrites, hlw]

end DssDeployment

/-! ### Claim C2: the address book written by `to_dict` -/

/-- C2 (amended): under the naming convention — collaterals keyed by
their ilk names, names nonempty alphanumeric-and-hyphen strings
starting alphanumerically, no ilk named `DAI`, and collaterals sharing
a gem symbol agreeing on gem and price feed — `to_dict` returns a flat
map holding the nineteen fixed keys at the corresponding handles'
addresses, the symbol / `PIP_` (when a feed is present) / `MCD_JOIN_` /
`MCD_FLIP_` keys of every collateral at its gem, pip, adapter and
flipper addresses, and no other keys.  (Without those hypotheses the
fixed-key part fails, see the counterexample with an ilk named `DAI`.) -/
theorem claim_C2 (c : DssDeployment.Config) (hg : goodCollaterals c) :
    ∃ D, DssDeployment.Config.to_dict c = some D ∧
      (dlookup D "MCD_PAUSE" = some c.pause ∧ dlookup D "MCD_VAT" = some c.vat ∧
       dlookup D "MCD_VOW" = some c.vow ∧ dlookup D "MCD_JUG" = some c.jug ∧
       dlookup D "MCD_CAT" = some c.cat ∧ dlookup D "MCD_FLAP" = some c.flapper ∧
       dlookup D "MCD_FLOP" = some c.flopper ∧ dlookup D "MCD_POT" = some c.pot ∧
       dlookup D "MCD_DAI" = some c.dai ∧ dlookup D "MCD_JOIN_DAI" = some c.dai_join ∧
       dlookup D "MCD_GOV" = some c.mkr ∧ dlookup D "MCD_SPOT" = some c.spotter ∧
       dlookup D "MCD_ADM" = some c.ds_chief ∧ dlookup D "MCD_ESM" = some c.esm ∧
       dlookup D "MCD_END" = some c.end' ∧
       dlookup D "PROXY_REGISTRY" = some c.proxy_registry ∧
       dlookup D "PROXY_ACTIONS_DSR" = some c.dss_proxy_actions ∧
       dlookup D "CDP_MANAGER" = some c.cdp_manager ∧
       dlookup D "DSR_MANAGER" = some c.dsr_manager) ∧
      (∀ e ∈ c.collaterals,
        dlookup D (symbolOf e.2.ilk.name) = some e.2.gem ∧
        (∀ p, e.2.pip = some p →
          dlookup D ("PIP_" ++ symbolOf e.2.ilk.name) = some p) ∧
        dlookup D ("MCD_JOIN_" ++ pyReplace e.2.ilk.name '-' '_') = some e.2.adapter ∧
        dlookup D ("MCD_FLIP_" ++ pyReplace e.2.ilk.name '-' '_') = some e.2.flipper) ∧
      (∀ k ∈ dkeys D, k ∈ fixedNames ∨ ∃ e ∈ c.collaterals,
        k = symbolOf e.2.ilk.name ∨ k = "PIP_" ++ symbolOf e.2.ilk.name ∨
        k = "MCD_JOIN_" ++ pyReplace e.2.ilk.name '-' '_' ∨
        k = "MCD_FLIP_" ++ pyReplace e.2.ilk.name '-' '_') := by
  have hsimple : ∀ e ∈ c.collaterals, simpleIlkName e.2.ilk.name :=
    fun e he => (hg.1 e he).2.1
  obtain ⟨hfix, hcols⟩ := DssDeployment.good_lookups hg
  refine ⟨_, DssDeployment.to_dict_eq hsimple, ?_, ?_, ?_⟩
  · exact ⟨(hfix "MCD_PAUSE" (by decide)).trans rfl, (hfix "MCD_VAT" (by decide)).trans rfl,
      (hfix "MCD_VOW" (by decide)).trans rfl, (hfix "MCD_JUG" (by decide)).trans rfl,
      (hfix "MCD_CAT" (by decide)).trans rfl, (hfix "MCD_FLAP" (by decide)).trans rfl,
      (hfix "MCD_FLOP" (by decide)).trans rfl, (hfix "MCD_POT" (by decide)).trans rfl,
      (hfix "MCD_DAI" (by decide)).trans rfl, (hfix "MCD_JOIN_DAI" (by decide)).trans rfl,
      (hfix "MCD_GOV" (by decide)).trans rfl, (hfix "MCD_SPOT" (by decide)).trans rfl,
      (hfix "MCD_ADM" (by decide)).trans rfl, (hfix "MCD_ESM" (by decide)).trans rfl,
      (hfix "MCD_END" (by decide)).trans rfl,
      (hfix "PROXY_REGISTRY" (by decide)).trans rfl,
      (hfix "PROXY_ACTIONS_DSR" (by decide)).trans rfl,
      (hfix "CDP_MANAGER" (by decide)).trans rfl,
      (hfix "DSR_MANAGER" (by decide)).trans rfl⟩
  · intro e he
    obtain ⟨h1, h2, _, h4, h5⟩ := hcols e he
    exact ⟨h1, h2, h4, h5⟩
  · intro k hk
    rw [DssDeployment.mem_dkeys_applyWrites] at hk
    rcases hk with hk | ⟨w, hw, hwk⟩
    · left
      rw [show dkeys c.fixedEntries = fixedNames from rfl] at hk
      exact hk
    · right
      obtain ⟨e, he, hcase⟩ := DssDeployment.mem_allWrites hsimple hw
      refine ⟨e, he, ?_⟩
      rcases hcase with rfl | ⟨p, _, rfl⟩ | rfl | rfl
      · exact Or.inl hwk.symm
      · exact Or.inr (Or.inl hwk.symm)
      · exact Or.inr (Or.inr (Or.inl hwk.symm))
      · exact Or.inr (Or.inr (Or.inr hwk.symm))

/-- Counterexample to C2 as stated: with a collateral whose ilk is
named `DAI`, the collateral's `MCD_JOIN_DAI` assignment overwrites the
fixed `dai_join` entry, so `MCD_JOIN_DAI` is no longer mapped to the
`dai_join` handle's address. -/
theorem claim_C2_counterexample :
    (DssDeployment.Config.to_dict cexDai).map (fun d => dlookup d "MCD_JOIN_DAI") ≠
      some (some cexDai.dai_join) := by decide

/-- Witness for C2 at the concrete config `cfgW`. -/
theorem claim_C2_witness :
    goodCollaterals cfgW ∧
    ∃ D, DssDeployment.Config.to_dict cfgW = some D ∧
      (dlookup D "MCD_PAUSE" = some cfgW.pause ∧ dlookup D "MCD_VAT" = some cfgW.vat ∧
       dlookup D "MCD_VOW" = some cfgW.vow ∧ dlookup D "MCD_JUG" = some cfgW.jug ∧
       dlookup D "MCD_CAT" = some cfgW.cat ∧ dlookup D "MCD_FLAP" = some cfgW.flapper ∧
       dlookup D "MCD_FLOP" = some cfgW.flopper ∧ dlookup D "MCD_POT" = some cfgW.pot ∧
       dlookup D "MCD_DAI" = some cfgW.dai ∧
       dlookup D "MCD_JOIN_DAI" = some cfgW.dai_join ∧
       dlookup D "MCD_GOV" = some cfgW.mkr ∧ dlookup D "MCD_SPOT" = some cfgW.spotter ∧
       dlookup D "MCD_ADM" = some cfgW.ds_chief ∧ dlookup D "MCD_ESM" = some cfgW.esm ∧
       dlookup D "MCD_END" = some cfgW.end' ∧
       dlookup D "PROXY_REGISTRY" = some cfgW.proxy_registry ∧
       dlookup D "PROXY_ACTIONS_DSR" = some cfgW.dss_proxy_actions ∧
       dlookup D "CDP_MANAGER" = some cfgW.cdp_manager ∧
       dlookup D "DSR_MANAGER" = some cfgW.dsr_manager) ∧
      (∀ e ∈ cfgW.collaterals,
        dlookup D (symbolOf e.2.ilk.name) = some e.2.gem ∧
        (∀ p, e.2.pip = some p →
          dlookup D ("PIP_" ++ symbolOf e.2.ilk.name) = some p) ∧
        dlookup D ("MCD_JOIN_" ++ pyReplace e.2.ilk.name '-' '_') = some e.2.adapter ∧
        dlookup D ("MCD_FLIP_" ++ pyReplace e.2.ilk.name '-' '_') = some e.2.flipper) ∧
      (∀ k ∈ dkeys D, k ∈ fixedNames ∨ ∃ e ∈ cfgW.collaterals,
        k = symbolOf e.2.ilk.name ∨ k = "PIP_" ++ symbolOf e.2.ilk.name ∨
        k = "MCD_JOIN_" ++ pyReplace e.2.ilk.name '-' '_' ∨
        k = "MCD_FLIP_" ++ pyReplace e.2.ilk.name '-' '_') :=
  ⟨by decide, claim_C2 cfgW (by decide)⟩

/-! ### Claim C3: parsed collaterals are consistent with the book -/

/-- C3: every collateral entry of a config built by
`Config.from_json` is consistent with the address book: for its
inferred `(ilk-part, symbol)` pair, the gem, adapter, price-feed and
flipper addresses are the book's entries at the symbol, `MCD_JOIN_`,
`PIP_` and `MCD_FLIP_` names, and its key is the hyphenated ilk part. -/
theorem claim_C3 (conf : AB) (c : DssDeployment.Config)
    (h : DssDeployment.Config.from_json conf = some c) :
    ∀ e ∈ c.collaterals, consistentEntry conf e.1 e.2 := by
  obtain ⟨a, b, _, _, hc⟩ := DssDeployment.from_json_parts h
  exact DssDeployment.foldlM_entries_consistent (fun q hq => hq)
    (fun e he => absurd he (List.not_mem_nil e)) hc

/-- Witness for C3: the `ETH-A` collateral parsed from the concrete
book `bookW` is consistent with it. -/
theorem claim_C3_witness : consistentEntry bookW "ETH-A" colW :=
  claim_C3 bookW cfgW (by decide) ("ETH-A", colW) (by decide)

/-! ### Claim C4: missing-key behaviour of `from_json` -/

/-- C4: `Config.from_json` fails (the Python code raises `KeyError`)
whenever one of the nineteen fixed names is absent, or one of the
symbol / `MCD_JOIN_` / `PIP_` names needed by an inferred collateral is
absent; and it succeeds when every name it reads (including the
`MCD_FLIP_` name of each inferred pair) is present. -/
theorem claim_C4 (conf : AB) :
    (∀ k ∈ fixedNames, k ∉ dkeys conf → DssDeployment.Config.from_json conf = none) ∧
    (∀ q ∈ infer_collaterals_from_addresses (dkeys conf),
      (q.2 ∉ dkeys conf ∨ ("MCD_JOIN_" ++ q.1) ∉ dkeys conf ∨
        ("PIP_" ++ q.2) ∉ dkeys conf) →
      DssDeployment.Config.from_json conf = none) ∧
    ((∀ k ∈ fixedNames, (dlookup conf k).isSome) →
      (∀ q ∈ infer_collaterals_from_addresses (dkeys conf),
        (dlookup conf q.2).isSome ∧ (dlookup conf ("MCD_JOIN_" ++ q.1)).isSome ∧
        (dlookup conf ("PIP_" ++ q.2)).isSome ∧
        (dlookup conf ("MCD_FLIP_" ++ q.1)).isSome) →
      ∃ c, DssDeployment.Config.from_json conf = some c) := by
  refine ⟨?_, ?_, ?_⟩
  · intro k hk hout
    rcases hj : DssDeployment.Config.from_json conf with _ | c
    · rfl
    · have hsome := DssDeployment.from_json_fixed_isSome hj k hk
      rw [(dlookup_eq_none_iff conf k).mpr hout] at hsome
      cases hsome
  · intro q hq hfail
    have hfail' : dlookup conf q.2 = none ∨ dlookup conf ("MCD_JOIN_" ++ q.1) = none ∨
        dlookup conf ("PIP_" ++ q.2) = none ∨ dlookup conf ("MCD_FLIP_" ++ q.1) = none := by
      rcases hfail with h | h | h
      · exact Or.inl ((dlookup_eq_none_iff _ _).mpr h)
      · exact Or.inr (Or.inl ((dlookup_eq_none_iff _ _).mpr h))
      · exact Or.inr (Or.inr (Or.inl ((dlookup_eq_none_iff _ _).mpr h)))
    exact DssDeployment.from_json_none_of_collats
      (DssDeployment.foldlM_none_of_mem (DssDeployment.collatStep_none_of hfail') hq)
  · intro hfixed hcols
    have hA : ∃ a, DssDeployment.readFixedA conf = some a := by
      have q1 := hfixed "MCD_PAUSE" (by decide)
      have q2 := hfixed "MCD_VAT" (by decide)
      have q3 := hfixed "MCD_VOW" (by decide)
      have q4 := hfixed "MCD_JUG" (by decide)
      have q5 := hfixed "MCD_CAT" (by decide)
      have q6 := hfixed "MCD_DAI" (by decide)
      have q7 := hfixed "MCD_JOIN_DAI" (by decide)
      have q8 := hfixed "MCD_FLAP" (by decide)
      have q9 := hfixed "MCD_FLOP" (by decide)
      have q10 := hfixed "MCD_POT" (by decide)
      rw [Option.isSome_iff_exists] at q1 q2 q3 q4 q5 q6 q7 q8 q9 q10
      obtain ⟨v1, e1⟩ := q1
      obtain ⟨v2, e2⟩ := q2
      obtain ⟨v3, e3⟩ := q3
      obtain ⟨v4, e4⟩ := q4
      obtain ⟨v5, e5⟩ := q5
      obtain ⟨v6, e6⟩ := q6
      obtain ⟨v7, e7⟩ := q7
      obtain ⟨v8, e8⟩ := q8
      obtain ⟨v9, e9⟩ := q9
      obtain ⟨v10, e10⟩ := q10
      exact ⟨DssDeployment.FixedA.mk v1 v2 v3 v4 v5 v6 v7 v8 v9 v10,
        DssDeployment.readFixedA_eq_some.mpr
          ⟨e1, e2, e3, e4, e5, e6, e7, e8, e9, e10⟩⟩
    have hB : ∃ b, DssDeployment.readFixedB conf = some b := by
      have q1 := hfixed "MCD_GOV" (by decide)
      have q2 := hfixed "MCD_SPOT" (by decide)
      have q3 := hfixed "MCD_ADM" (by decide)
      have q4 := hfixed "MCD_ESM" (by decide)
      have q5 := hfixed "MCD_END" (by decide)
      have q6 := hfixed "PROXY_REGISTRY" (by decide)
      have q7 := hfixed "PROXY_ACTIONS_DSR" (by decide)
      have q8 := hfixed "CDP_MANAGER" (by decide)
      have q9 := hfixed "DSR_MANAGER" (by decide)
      rw [Option.isSome_iff_exists] at q1 q2 q3 q4 q5 q6 q7 q8 q9
      obtain ⟨v1, e1⟩ := q1
      obtain ⟨v2, e2⟩ := q2
      obtain ⟨v3, e3⟩ := q3
      obtain ⟨v4, e4⟩ := q4
      obtain ⟨v5, e5⟩ := q5
      obtain ⟨v6, e6⟩ := q6
      obtain ⟨v7, e7⟩ := q7
      obtain ⟨v8, e8⟩ := q8
      obtain ⟨v9, e9⟩ := q9
      exact ⟨DssDeployment.FixedB.mk v1 v2 v3 v4 v5 v6 v7 v8 v9,
        DssDeployment.readFixedB_eq_some.mpr ⟨e1, e2, e3, e4, e5, e6, e7, e8, e9⟩⟩
    obtain ⟨a, ha⟩ := hA
    obtain ⟨b, hb⟩ := hB
    obtain ⟨cols, hcols'⟩ := DssDeployment.foldlM_isSome_of_lookups hcols
      ([] : List (String × Collateral))
    exact ⟨_, DssDeployment.from_json_mk ha hb hcols'⟩

/-- Witness for C4: parsing fails on `bookW` without `MCD_VAT` and
succeeds on the complete `bookW`. -/
theorem claim_C4_witness :
    DssDeployment.Config.from_json bookMissing = none ∧
    ∃ c, DssDeployment.Config.from_json bookW = some c :=
  ⟨(claim_C4 bookMissing).1 "MCD_VAT" (by decide) (by decide),
   (claim_C4 bookW).2.2 (by decide) (by decide)⟩

/-! ### Claim C5: inference is regular-expression matching on the key set -/

/-- C5 (amended): the collateral set is determined by pattern matching
over the flat key list alone — `_infer_collaterals_from_addresses`
computes, key by key, exactly the specification-side `specInferOne`
(earliest position of `MCD_FLIP_` followed by a word run admitting an
internal underscore split, preferred over the earliest position with
any nonempty word run; split at the last underscore that is neither the
first nor the last character of the run); keys without the pattern
contribute nothing, and `from_json` creates one collateral per
*distinct* hyphenated ilk part of the returned pairs (a later pair with
the same ilk part overwrites the earlier collateral, so "exactly one
collateral per returned pair" holds only up to that deduplication). -/
theorem claim_C5 :
    (∀ w : List Char, regexSplit w = specSplit w) ∧
    (∀ key : String, inferOne key = specInferOne key) ∧
    (∀ keys : List String,
      infer_collaterals_from_addresses keys = keys.filterMap specInferOne) ∧
    (∀ (conf : AB) (c : DssDeployment.Config),
      DssDeployment.Config.from_json conf = some c →
      (dkeys c.collaterals).Nodup ∧
      ∀ n, n ∈ dkeys c.collaterals ↔
        ∃ q ∈ infer_collaterals_from_addresses (dkeys conf),
          n = pyReplace q.1 '_' '-') := by
  have hfun : inferOne = specInferOne := funext inferOne_eq_spec
  refine ⟨regexSplit_eq_specSplit, inferOne_eq_spec, ?_, ?_⟩
  · intro keys
    show keys.filterMap inferOne = keys.filterMap specInferOne
    rw [hfun]
  · intro conf c h
    obtain ⟨a, b, _, _, hc⟩ := DssDeployment.from_json_parts h
    obtain ⟨hnd, hmem⟩ := DssDeployment.foldlM_fold_keys hc
    refine ⟨hnd (by simp [dkeys]), fun n => ?_⟩
    rw [hmem n]
    simp [dkeys]

/-- Counterexample to C5 as stated: in `book5` two different keys
(`MCD_FLIP_A` and `XMCD_FLIP_A`) return two pairs, yet `from_json`
creates a single collateral, because both pairs have the ilk part `A`. -/
theorem claim_C5_counterexample :
    (infer_collaterals_from_addresses (dkeys book5)).length = 2 ∧
    (DssDeployment.Config.from_json book5).map (fun c => c.collaterals.length) =
      some 1 := by decide

/-- Witness for C5 on the concrete book `bookW`. -/
theorem claim_C5_witness :
    inferOne "XMCD_FLIP_A" = specInferOne "XMCD_FLIP_A" ∧
    ((dkeys cfgW.collaterals).Nodup ∧
      ∀ n, n ∈ dkeys cfgW.collaterals ↔
        ∃ q ∈ infer_collaterals_from_addresses (dkeys bookW),
          n = pyReplace q.1 '_' '-') :=
  ⟨claim_C5.2.1 "XMCD_FLIP_A", claim_C5.2.2.2 bookW cfgW (by decide)⟩

/-! ### Claim C6: network-keyed loading -/

/-- C6: `DssDeployment.from_node` maps the node's network version to
`mainnet` for version `"1"`, `kovan` for `"42"`, and `testnet` for every
other version, and loads the parsed address book of the file
`config/<network>-addresses.json` through `from_network` and
`Config.from_json`. -/
theorem claim_C6 :
    DssDeployment.networkName "1" = "mainnet" ∧
    DssDeployment.networkName "42" = "kovan" ∧
    (∀ v : String, v ≠ "1" → v ≠ "42" → DssDeployment.networkName v = "testnet") ∧
    (∀ (book : String → AB) (v : String),
      DssDeployment.from_node book v =
        DssDeployment.Config.from_json
          (book ("config/" ++ DssDeployment.networkName v ++ "-addresses.json"))) := by
  refine ⟨rfl, rfl, ?_, ?_⟩
  · intro v h1 h42
    simp [DssDeployment.networkName, DssDeployment.NETWORKS, dlookup,
      Ne.symm h1, Ne.symm h42]
  · intro book v
    rfl

/-- Witness for C6 at the concrete network version `"7"`. -/
theorem claim_C6_witness :
    DssDeployment.networkName "7" = "testnet" ∧
    DssDeployment.from_node (fun _ => []) "7" = DssDeployment.Config.from_json [] :=
  ⟨claim_C6.2.2.1 "7" (by decide) (by decide),
   claim_C6.2.2.2 (fun _ => []) "7"⟩

/-! ### Claim C7: the deployment object copies its config -/

/-- C7: `DssDeployment.__init__` exposes every handle of the config as
a field of the deployment unchanged (`dai_adapter` is set from
`config.dai_join`), and `DssDeployment.to_json` returns exactly
`config.to_json()`. -/
theorem claim_C7 (config : DssDeployment.Config) :
    (DssDeployment.ofConfig config).pause = config.pause ∧
    (DssDeployment.ofConfig config).vat = config.vat ∧
    (DssDeployment.ofConfig config).vow = config.vow ∧
    (DssDeployment.ofConfig config).jug = config.jug ∧
    (DssDeployment.ofConfig config).cat = config.cat ∧
    (DssDeployment.ofConfig config).flapper = config.flapper ∧
    (DssDeployment.ofConfig config).flopper = config.flopper ∧
    (DssDeployment.ofConfig config).pot = config.pot ∧
    (DssDeployment.ofConfig config).dai = config.dai ∧
    (DssDeployment.ofConfig config).dai_adapter = config.dai_join ∧
    (DssDeployment.ofConfig config).mkr = config.mkr ∧
    (DssDeployment.ofConfig config).collaterals = config.collaterals ∧
    (DssDeployment.ofConfig config).spotter = config.spotter ∧
    (DssDeployment.ofConfig config).ds_chief = config.ds_chief ∧
    (DssDeployment.ofConfig config).esm = config.esm ∧
    (DssDeployment.ofConfig config).end' = config.end' ∧
    (DssDeployment.ofConfig config).proxy_registry = config.proxy_registry ∧
    (DssDeployment.ofConfig config).dss_proxy_actions = config.dss_proxy_actions ∧
    (DssDeployment.ofConfig config).cdp_manager = config.cdp_manager ∧
    (DssDeployment.ofConfig config).dsr_manager = config.dsr_manager ∧
    DssDeployment.to_json (DssDeployment.ofConfig config) = config.to_json :=
  ⟨rfl, rfl, rfl, rfl, rfl, rfl, rfl, rfl, rfl, rfl, rfl, rfl, rfl, rfl, rfl, rfl, rfl,
   rfl, rfl, rfl, rfl⟩

/-! ### Claims C1 and C8: the full serialization round trip

The keys written by `to_dict` are classified by what
`_infer_collaterals_from_addresses` finds in them: the symbol, `PIP_`
and `MCD_JOIN_` keys contain no occurrence of the `MCD_FLIP_` literal,
and the `MCD_FLIP_` key of a collateral with at most one hyphen in its
name is matched back to exactly the `(ilk-part, symbol)` pair `to_dict`
started from. -/

lemma prefix_of_isPrefixOf : ∀ {l t : List Char}, l.isPrefixOf t = true → ∃ v, t = l ++ v
  | [], t, _ => ⟨t, rfl⟩
  | c :: l, [], h => by simp [List.isPrefixOf] at h
  | c :: l, d :: t, h => by
    simp only [List.isPrefixOf, Bool.and_eq_true, beq_iff_eq] at h
    obtain ⟨rfl, h2⟩ := h
    obtain ⟨v, rfl⟩ := prefix_of_isPrefixOf h2
    exact ⟨v, rfl⟩

/-- Any occurrence of the literal `MCD_FLIP_` in `s` forces the
characters `M`, `_`, `F`, `_` at offsets `0`, `3`, `4`, `8` of some
position of `s`. -/
lemma flip_occurrence {s t : List Char} (hsuf : t <:+ s) (hpre : flipPat.isPrefixOf t = true) :
    ∃ i, s[i]? = some 'M' ∧ s[i + 3]? = some '_' ∧ s[i + 4]? = some 'F' ∧
      s[i + 8]? = some '_' := by
  obtain ⟨u, rfl⟩ := hsuf
  obtain ⟨v, rfl⟩ := prefix_of_isPrefixOf hpre
  have h9 : flipPat.length = 9 := by decide
  have key : ∀ j, j < 9 → (u ++ (flipPat ++ v))[u.length + j]? = flipPat[j]? := by
    intro j hj
    rw [List.getElem?_append_right (Nat.le_add_right _ _), Nat.add_sub_cancel_left,
      List.getElem?_append_left (by omega)]
  refine ⟨u.length, ?_, ?_, ?_, ?_⟩
  · have h0 := key 0 (by omega)
    rw [Nat.add_zero] at h0
    rw [h0]
    decide
  · rw [key 3 (by omega)]
    decide
  · rw [key 4 (by omega)]
    decide
  · rw [key 8 (by omega)]
    decide

lemma noFlipOcc_of_positions {s : List Char}
    (h : ∀ i : Nat, ¬(s[i]? = some 'M' ∧ s[i + 3]? = some '_' ∧ s[i + 4]? = some 'F' ∧
      s[i + 8]? = some '_')) : noFlipOcc s := by
  intro t ht hp
  obtain ⟨i, h1, h2, h3, h4⟩ := flip_occurrence ht hp
  exact h i ⟨h1, h2, h3, h4⟩

lemma underscore_pos_lit {P R : List Char} {m : Nat} (h : (P ++ R)[m]? = some '_') :
    (m < P.length ∧ P[m]? = some '_') ∨ (P.length ≤ m ∧ R[m - P.length]? = some '_') := by
  by_cases hm : m < P.length
  · left
    refine ⟨hm, ?_⟩
    rw [← List.getElem?_append_left hm]
    exact h
  · right
    refine ⟨by omega, ?_⟩
    rw [← List.getElem?_append_right (by omega)]
    exact h

lemma mem_of_getElem_opt {l : List Char} {j : Nat} {c : Char} (h : l[j]? = some c) : c ∈ l := by
  rw [List.getElem?_eq_some] at h
  obtain ⟨hj, rfl⟩ := h
  exact List.getElem_mem hj

lemma no_underscore_getElem {R : List Char} (hR : R.all Char.isAlphanum = true) (j : Nat) :
    R[j]? ≠ some '_' := by
  intro h
  exact absurd (List.all_eq_true.mp hR '_' (mem_of_getElem_opt h)) (by decide)

/-- In `A ++ '_' :: B` with `A`, `B` alphanumeric, the only underscore
sits at position `A.length`. -/
lemma underscore_mid {A B : List Char} (hA : A.all Char.isAlphanum = true)
    (hB : B.all Char.isAlphanum = true) {j : Nat} (h : (A ++ '_' :: B)[j]? = some '_') :
    j = A.length := by
  rcases underscore_pos_lit h with ⟨_, hP⟩ | ⟨hge, hR⟩
  · exact absurd hP (no_underscore_getElem hA _)
  · rcases hd : j - A.length with _ | k
    · omega
    · rw [hd, List.getElem?_cons_succ] at hR
      exact absurd hR (no_underscore_getElem hB _)

lemma noFlipOcc_plain {S : List Char} (hS : S.all Char.isAlphanum = true) : noFlipOcc S := by
  apply noFlipOcc_of_positions
  rintro i ⟨_, h2, _, _⟩
  exact no_underscore_getElem hS _ h2

lemma noFlipOcc_pip {S : List Char} (hS : S.all Char.isAlphanum = true) :
    noFlipOcc ("PIP_".toList ++ S) := by
  apply noFlipOcc_of_positions
  rintro i ⟨_, _, _, h4⟩
  rcases underscore_pos_lit h4 with ⟨hlt, _⟩ | ⟨_, hR⟩
  · have hl : ("PIP_".toList).length = 4 := by decide
    omega
  · exact no_underscore_getElem hS _ hR

lemma noFlipOcc_cdflip {R : List Char} (hR : R.all Char.isAlphanum = true) :
    noFlipOcc ("CD_FLIP_".toList ++ R) := by
  apply noFlipOcc_of_positions
  rintro i ⟨_, _, _, h4⟩
  rcases underscore_pos_lit h4 with ⟨hlt, _⟩ | ⟨_, hR'⟩
  · have hl : ("CD_FLIP_".toList).length = 8 := by decide
    omega
  · exact no_underscore_getElem hR _ hR'

lemma join_lit_underscore :
    ∀ m : Nat, m < ("MCD_JOIN_".toList).length →
      ("MCD_JOIN_".toList)[m]? = some '_' → m = 3 ∨ m = 8 := by decide

lemma noFlipOcc_join_plain {R : List Char} (hR : R.all Char.isAlphanum = true) :
    noFlipOcc ("MCD_JOIN_".toList ++ R) := by
  apply noFlipOcc_of_positions
  rintro i ⟨h1, h2, h3, _⟩
  rcases underscore_pos_lit h2 with ⟨hlt, hP⟩ | ⟨_, hR'⟩
  · rcases join_lit_underscore _ hlt hP with hi | hi
    · have hi0 : i = 0 := by omega
      subst hi0
      simp only [Nat.zero_add] at h3
      rw [List.getElem?_append_left (by decide)] at h3
      exact absurd h3 (by decide)
    · have hi5 : i = 5 := by omega
      subst hi5
      rw [List.getElem?_append_left (by decide)] at h1
      exact absurd h1 (by decide)
  · exact no_underscore_getElem hR _ hR'

lemma noFlipOcc_join_hyphen {A B : List Char} (hA : A.all Char.isAlphanum = true)
    (hB : B.all Char.isAlphanum = true) :
    noFlipOcc ("MCD_JOIN_".toList ++ (A ++ '_' :: B)) := by
  apply noFlipOcc_of_positions
  rintro i ⟨h1, h2, h3, h4⟩
  have h9 : ("MCD_JOIN_".toList).length = 9 := by decide
  have hpos : ∀ m : Nat, ("MCD_JOIN_".toList ++ (A ++ '_' :: B))[m]? = some '_' →
      m = 3 ∨ m = 8 ∨ m = 9 + A.length := by
    intro m hm
    rcases underscore_pos_lit hm with ⟨hlt, hP⟩ | ⟨hge, hR⟩
    · rcases join_lit_underscore _ hlt hP with h' | h'
      · exact Or.inl h'
      · exact Or.inr (Or.inl h')
    · have := underscore_mid hA hB hR
      omega
  rcases hpos _ h2 with hi | hi | hi
  · have hi0 : i = 0 := by omega
    subst hi0
    simp only [Nat.zero_add] at h3
    rw [List.getElem?_append_left (by decide)] at h3
    exact absurd h3 (by decide)
  · have hi5 : i = 5 := by omega
    subst hi5
    rw [List.getElem?_append_left (by decide)] at h1
    exact absurd h1 (by decide)
  · rcases hpos _ h4 with h' | h' | h' <;> omega

lemma searchFlip2_plainflip {R : List Char} (hR : R.all Char.isAlphanum = true) :
    searchFlip2 (flipPat ++ R) = none := by
  rw [searchFlip2_flip, takeWhile_eq_self (word_of_alphanum hR),
    regexSplit_eq_none (no_underscore_getElem hR)]
  exact searchFlip2_eq_none (noFlipOcc_cdflip hR)

lemma isEmpty_false_of_ne {R : List Char} (h : R ≠ []) : R.isEmpty = false := by
  rcases R with _ | ⟨c, t⟩
  · exact absurd rfl h
  · rfl

lemma searchFlip1_plainflip {R : List Char} (hR : R.all Char.isAlphanum = true)
    (hne : R ≠ []) : searchFlip1 (flipPat ++ R) = some ⟨R⟩ := by
  rw [searchFlip1_flip, takeWhile_eq_self (word_of_alphanum hR), isEmpty_false_of_ne hne]
  simp

lemma searchFlip2_hyphenflip {A B : List Char} (hA : A.all Char.isAlphanum = true)
    (hB : B.all Char.isAlphanum = true) (hAne : A ≠ []) (hBne : B ≠ []) :
    searchFlip2 (flipPat ++ (A ++ '_' :: B)) = some (⟨A ++ '_' :: B⟩, ⟨A⟩) := by
  have hword : (A ++ '_' :: B).all isWordChar = true := by
    rw [List.all_eq_true]
    intro ch hch
    rcases List.mem_append.mp hch with h' | h'
    · exact List.all_eq_true.mp (word_of_alphanum hA) ch h'
    · rcases List.mem_cons.mp h' with rfl | h''
      · decide
      · exact List.all_eq_true.mp (word_of_alphanum hB) ch h''
  have hAlen : 1 ≤ A.length := by
    rcases A with _ | ⟨a, t⟩
    · exact absurd rfl hAne
    · simp
  have hBlen : 1 ≤ B.length := by
    rcases B with _ | ⟨b, t⟩
    · exact absurd rfl hBne
    · simp
  have hsplit : regexSplit (A ++ '_' :: B) = some A.length := by
    apply regexSplit_eq_some hAlen
    · rw [List.length_append, List.length_cons]
      omega
    · rw [List.getElem?_append_right (le_refl _), Nat.sub_self]
      simp
    · intro j hj _ hu
      have := underscore_mid hA hB hu
      omega
  rw [searchFlip2_flip, takeWhile_eq_self hword, hsplit]
  show some (String.mk (A ++ '_' :: B), String.mk ((A ++ '_' :: B).take A.length)) =
    some (String.mk (A ++ '_' :: B), String.mk A)
  rw [List.take_left]

lemma inferOne_of_noFlipOcc {key : String} (h : noFlipOcc key.data) : inferOne key = none := by
  unfold inferOne
  rw [show key.toList = key.data from rfl, searchFlip2_eq_none h, searchFlip1_eq_none h]

lemma inferOne_pipKey {S : String} (hS : S.data.all Char.isAlphanum = true) :
    inferOne ("PIP_" ++ S) = none :=
  inferOne_of_noFlipOcc (noFlipOcc_pip hS)

lemma inferOne_joinKey {n : String} (h : c1IlkName n) :
    inferOne ("MCD_JOIN_" ++ pyReplace n '-' '_') = none := by
  apply inferOne_of_noFlipOcc
  show noFlipOcc ("MCD_JOIN_".toList ++ (pyReplace n '-' '_').data)
  rcases c1_name_shape h with ⟨halpha, _, _, hrep⟩ | ⟨A, B, _, _, _, hAa, hBa, _, hrep⟩
  · rw [hrep]
    exact noFlipOcc_join_plain halpha
  · rw [hrep]
    exact noFlipOcc_join_hyphen hAa hBa

/-- The inference recovers from the `MCD_FLIP_` key of a collateral
with at most one hyphen in its name exactly the pair `to_dict` wrote
it from: the underscored name and the symbol. -/
lemma inferOne_flipKey {n : String} (h : c1IlkName n) :
    inferOne ("MCD_FLIP_" ++ pyReplace n '-' '_') =
      some (pyReplace n '-' '_', symbolOf n) := by
  have hlist : ("MCD_FLIP_" ++ pyReplace n '-' '_').toList =
      flipPat ++ (pyReplace n '-' '_').data := rfl
  unfold inferOne
  rw [hlist]
  rcases c1_name_shape h with ⟨halpha, hne, hsym, hrep⟩ |
    ⟨A, B, _, hAne, hBne, hAa, hBa, hsym, hrep⟩
  · rw [hrep, searchFlip2_plainflip halpha, searchFlip1_plainflip halpha hne]
    show some ((⟨n.data⟩ : String), (⟨n.data⟩ : String)) = some (pyReplace n '-' '_', symbolOf n)
    have e1 : pyReplace n '-' '_' = (⟨n.data⟩ : String) := str_data_inj hrep
    have e2 : symbolOf n = (⟨n.data⟩ : String) := str_data_inj hsym
    rw [e1, e2]
  · rw [hrep, searchFlip2_hyphenflip hAa hBa hAne hBne]
    show some ((⟨A ++ '_' :: B⟩ : String), (⟨A⟩ : String)) =
      some (pyReplace n '-' '_', symbolOf n)
    have e1 : pyReplace n '-' '_' = (⟨A ++ '_' :: B⟩ : String) := str_data_inj hrep
    have e2 : symbolOf n = (⟨A⟩ : String) := str_data_inj hsym
    rw [e1, e2]

lemma filterMap_dinsert_none {m : AB} {k : String} {v : Addr} (h : inferOne k = none) :
    (dkeys (dinsert m k v)).filterMap inferOne = (dkeys m).filterMap inferOne := by
  rw [dkeys_dinsert]
  by_cases hm : k ∈ dkeys m
  · rw [if_pos hm]
  · rw [if_neg hm, List.filterMap_append]
    simp [h]

lemma filterMap_dinsert_fresh {m : AB} {k : String} {v : Addr} {q : String × String}
    (hm : k ∉ dkeys m) (h : inferOne k = some q) :
    (dkeys (dinsert m k v)).filterMap inferOne =
      (dkeys m).filterMap inferOne ++ [q] := by
  rw [dkeys_dinsert, if_neg hm, List.filterMap_append]
  simp [h]

lemma mem_dkeys_dinsert {α : Type} {m : List (String × α)} {k k' : String} {v : α} :
    k' ∈ dkeys (dinsert m k v) ↔ k' ∈ dkeys m ∨ k' = k := by
  rw [dkeys_dinsert]
  by_cases hm : k ∈ dkeys m
  · rw [if_pos hm]
    constructor
    · exact Or.inl
    · rintro (h | rfl)
      · exact h
      · exact hm
  · rw [if_neg hm]
    simp [List.mem_append]

/-- Applying the four (or three) dict assignments of one collateral
appends exactly one pair — the one from its `MCD_FLIP_` key — to the
inference result over the key set (the `MCD_FLIP_` key must be fresh). -/
lemma filterMap_collat_writes {m : AB} {col : Collateral} (h : c1IlkName col.ilk.name)
    (hF : ("MCD_FLIP_" ++ pyReplace col.ilk.name '-' '_') ∉ dkeys m) :
    (dkeys (DssDeployment.applyWrites m
        ((DssDeployment.collatWrites col).getD []))).filterMap inferOne =
      (dkeys m).filterMap inferOne ++
        [(pyReplace col.ilk.name '-' '_', symbolOf col.ilk.name)] := by
  have hsimp : simpleIlkName col.ilk.name := h.1
  have hSa : (symbolOf col.ilk.name).data.all Char.isAlphanum = true :=
    (DssDeployment.simple_symbol_facts hsimp).2.2
  have hIS : inferOne (symbolOf col.ilk.name) = none :=
    inferOne_of_noFlipOcc (noFlipOcc_plain hSa)
  have hIP : inferOne ("PIP_" ++ symbolOf col.ilk.name) = none := inferOne_pipKey hSa
  have hIJ : inferOne ("MCD_JOIN_" ++ pyReplace col.ilk.name '-' '_') = none :=
    inferOne_joinKey h
  have hIF : inferOne ("MCD_FLIP_" ++ pyReplace col.ilk.name '-' '_') =
      some (pyReplace col.ilk.name '-' '_', symbolOf col.ilk.name) := inferOne_flipKey h
  have hFS : ("MCD_FLIP_" ++ pyReplace col.ilk.name '-' '_') ≠ symbolOf col.ilk.name :=
    Ne.symm (ne_of_no_underscore (alphanum_no_underscore hSa)
      (underscore_mem_append (by decide) _))
  have hFP : ("MCD_FLIP_" ++ pyReplace col.ilk.name '-' '_') ≠
      "PIP_" ++ symbolOf col.ilk.name := Ne.symm (pipKey_ne_flipKey _ _)
  have hFJ : ("MCD_FLIP_" ++ pyReplace col.ilk.name '-' '_') ≠
      "MCD_JOIN_" ++ pyReplace col.ilk.name '-' '_' := Ne.symm (joinKey_ne_flipKey _ _)
  rw [DssDeployment.collatWrites_eq hsimp]
  simp only [Option.getD_some]
  rcases hp : col.pip with _ | p
  · simp only [List.append_nil, List.singleton_append, List.cons_append, List.nil_append]
    simp only [DssDeployment.applyWrites_cons, DssDeployment.applyWrites_nil]
    have hFnotin : ("MCD_FLIP_" ++ pyReplace col.ilk.name '-' '_') ∉
        dkeys (dinsert (dinsert m (symbolOf col.ilk.name) col.gem)
          ("MCD_JOIN_" ++ pyReplace col.ilk.name '-' '_') col.adapter) := by
      rw [mem_dkeys_dinsert, mem_dkeys_dinsert]
      rintro ((h' | h') | h')
      exacts [hF h', hFS h', hFJ h']
    rw [filterMap_dinsert_fresh hFnotin hIF, filterMap_dinsert_none hIJ,
      filterMap_dinsert_none hIS]
  · simp only [List.singleton_append, List.cons_append, List.nil_append]
    simp only [DssDeployment.applyWrites_cons, DssDeployment.applyWrites_nil]
    have hFnotin : ("MCD_FLIP_" ++ pyReplace col.ilk.name '-' '_') ∉
        dkeys (dinsert (dinsert (dinsert m (symbolOf col.ilk.name) col.gem)
          ("PIP_" ++ symbolOf col.ilk.name) p)
          ("MCD_JOIN_" ++ pyReplace col.ilk.name '-' '_') col.adapter) := by
      rw [mem_dkeys_dinsert, mem_dkeys_dinsert, mem_dkeys_dinsert]
      rintro (((h' | h') | h') | h')
      exacts [hF h', hFS h', hFP h', hFJ h']
    rw [filterMap_dinsert_fresh hFnotin hIF, filterMap_dinsert_none hIJ,
      filterMap_dinsert_none hIP, filterMap_dinsert_none hIS]

/-- Running the whole collateral loop of `to_dict` on a dict `m`
appends, pair by pair in collateral order, the `(ilk-part, symbol)`
pairs to the inference result over the key set. -/
lemma infer_applyWrites :
    ∀ {cols : List (String × Collateral)} {m : AB},
      (∀ e ∈ cols, c1IlkName e.2.ilk.name) →
      (∀ e ∈ cols, ("MCD_FLIP_" ++ pyReplace e.2.ilk.name '-' '_') ∉ dkeys m) →
      (cols.map (fun e => "MCD_FLIP_" ++ pyReplace e.2.ilk.name '-' '_')).Nodup →
      (dkeys (DssDeployment.applyWrites m (allWrites cols))).filterMap inferOne =
        (dkeys m).filterMap inferOne ++
          cols.map (fun e => (pyReplace e.2.ilk.name '-' '_', symbolOf e.2.ilk.name))
  | [], m, _, _, _ => by
    simp [allWrites, DssDeployment.applyWrites_nil]
  | pc :: cols, m, hc1, hfresh, hnd => by
    have hc1p := hc1 pc (List.mem_cons_self _ _)
    rw [DssDeployment.allWrites_cons, DssDeployment.applyWrites_append]
    have hndtail :
        (cols.map (fun e => "MCD_FLIP_" ++ pyReplace e.2.ilk.name '-' '_')).Nodup ∧
        ∀ e ∈ cols, "MCD_FLIP_" ++ pyReplace e.2.ilk.name '-' '_' ≠
          "MCD_FLIP_" ++ pyReplace pc.2.ilk.name '-' '_' := by
      rw [List.map_cons, List.nodup_cons] at hnd
      exact ⟨hnd.2, fun e he heq => hnd.1 (heq ▸ List.mem_map_of_mem _ he)⟩
    have hfresh' : ∀ e ∈ cols, ("MCD_FLIP_" ++ pyReplace e.2.ilk.name '-' '_') ∉
        dkeys (DssDeployment.applyWrites m ((DssDeployment.collatWrites pc.2).getD [])) := by
      intro e he hmem
      rw [DssDeployment.mem_dkeys_applyWrites] at hmem
      rcases hmem with hmem | ⟨w, hw, hwk⟩
      · exact hfresh e (List.mem_cons_of_mem _ he) hmem
      · rw [DssDeployment.collatWrites_eq hc1p.1] at hw
        simp only [Option.getD_some] at hw
        have hSa : (symbolOf pc.2.ilk.name).data.all Char.isAlphanum = true :=
          (DssDeployment.simple_symbol_facts hc1p.1).2.2
        have hEu : '_' ∈ ("MCD_FLIP_" ++ pyReplace e.2.ilk.name '-' '_').data :=
          underscore_mem_append (by decide) _
        rcases List.mem_append.mp hw with hw' | hw'
        · rcases List.mem_append.mp hw' with hw'' | hw''
          · simp only [List.mem_singleton] at hw''
            subst hw''
            exact ne_of_no_underscore (alphanum_no_underscore hSa) hEu hwk
          · rcases hpp : pc.2.pip with _ | p
            · rw [hpp] at hw''
              simp at hw''
            · rw [hpp] at hw''
              simp only [List.mem_singleton] at hw''
              subst hw''
              exact pipKey_ne_flipKey _ _ hwk
        · simp only [List.mem_cons, List.not_mem_nil, or_false] at hw'
          rcases hw' with hw'' | hw''
          · subst hw''
            exact joinKey_ne_flipKey _ _ hwk
          · subst hw''
            exact hndtail.2 e he hwk.symm
    rw [infer_applyWrites (fun e he => hc1 e (List.mem_cons_of_mem _ he)) hfresh' hndtail.1]
    rw [filterMap_collat_writes hc1p (hfresh pc (List.mem_cons_self _ _))]
    rw [List.map_cons, List.append_assoc, List.singleton_append]

/-- The inference over the key set of the dict built by `to_dict`
returns exactly the `(ilk-part, symbol)` pair of every collateral, in
order. -/
lemma infer_to_dict {c : DssDeployment.Config}
    (hprops : ∀ e ∈ c.collaterals,
      e.1 = e.2.ilk.name ∧ c1IlkName e.2.ilk.name ∧ e.2.ilk.name ≠ "DAI")
    (hnodup : (dkeys c.collaterals).Nodup) :
    infer_collaterals_from_addresses
        (dkeys (DssDeployment.applyWrites c.fixedEntries (allWrites c.collaterals))) =
      c.collaterals.map (fun e => (pyReplace e.2.ilk.name '-' '_', symbolOf e.2.ilk.name)) := by
  have hc1all : ∀ e ∈ c.collaterals, c1IlkName e.2.ilk.name :=
    fun e he => (hprops e he).2.1
  have hFfix : ∀ e ∈ c.collaterals,
      ("MCD_FLIP_" ++ pyReplace e.2.ilk.name '-' '_') ∉ dkeys c.fixedEntries := by
    intro e he hmem
    rw [show dkeys c.fixedEntries = fixedNames from rfl] at hmem
    exact flipKey_ne_fixed hmem rfl
  have hFnd : (c.collaterals.map
      (fun e => "MCD_FLIP_" ++ pyReplace e.2.ilk.name '-' '_')).Nodup := by
    apply List.Nodup.map_on ?_ (List.Nodup.of_map Prod.fst hnodup)
    intro x hx y hy hxy
    have hR := append_str_inj hxy
    have hname := rename_inj (simple_no_underscore (hc1all x hx).1)
      (simple_no_underscore (hc1all y hy).1) hR
    have hk : x.1 = y.1 := by
      rw [(hprops x hx).1, (hprops y hy).1, hname]
    exact eq_of_mem_nodup_keys hnodup hx hy hk
  show (dkeys (DssDeployment.applyWrites c.fixedEntries
    (allWrites c.collaterals))).filterMap inferOne = _
  rw [infer_applyWrites hc1all hFfix hFnd]
  rw [show ((dkeys c.fixedEntries).filterMap inferOne : List (String × String)) = []
    from by show fixedNames.filterMap inferOne = ([] : List (String × String)); decide]
  rw [List.nil_append]

/-- Folding `collatStep` over the pairs generated from a collateral
list whose lookups all succeed with the original addresses rebuilds
exactly that collateral list. -/
lemma foldlM_reconstruct {conf : AB} :
    ∀ {cols : List (String × Collateral)} {acc : List (String × Collateral)},
      (∀ e ∈ cols,
        e.1 = e.2.ilk.name ∧ '_' ∉ e.2.ilk.name.data ∧
        dlookup conf (symbolOf e.2.ilk.name) = some e.2.gem ∧
        dlookup conf ("MCD_JOIN_" ++ pyReplace e.2.ilk.name '-' '_') = some e.2.adapter ∧
        (∃ p, e.2.pip = some p ∧
          dlookup conf ("PIP_" ++ symbolOf e.2.ilk.name) = some p) ∧
        dlookup conf ("MCD_FLIP_" ++ pyReplace e.2.ilk.name '-' '_') = some e.2.flipper) →
      (∀ e ∈ cols, e.1 ∉ dkeys acc) →
      (dkeys cols).Nodup →
      (cols.map (fun e => (pyReplace e.2.ilk.name '-' '_', symbolOf e.2.ilk.name))).foldlM
          (DssDeployment.collatStep conf) acc = some (acc ++ cols)
  | [], acc, _, _, _ => by simp
  | e :: cols, acc, hall, hacc, hnd => by
    obtain ⟨hkey, hnu, hg, hj, ⟨p, hp, hpl⟩, hf⟩ := hall e (List.mem_cons_self _ _)
    have hrr : pyReplace (pyReplace e.2.ilk.name '-' '_') '_' '-' = e.2.ilk.name :=
      str_data_inj (replace_roundtrip_name hnu)
    rw [List.map_cons, List.foldlM_cons]
    have hcol : Collateral.mk (Ilk.mk e.2.ilk.name) e.2.gem e.2.adapter e.2.flipper
        (some p) = e.2 := by
      rw [← hp]
    have hres : acc ++ [e] = dinsert acc (pyReplace (pyReplace e.2.ilk.name '-' '_') '_' '-')
        (Collateral.mk (Ilk.mk (pyReplace (pyReplace e.2.ilk.name '-' '_') '_' '-'))
          e.2.gem e.2.adapter e.2.flipper (some p)) := by
      rw [hrr, hcol, ← hkey, dinsert_of_not_mem (hacc e (List.mem_cons_self _ _))]
    have hstep : DssDeployment.collatStep conf acc
        (pyReplace e.2.ilk.name '-' '_', symbolOf e.2.ilk.name) = some (acc ++ [e]) :=
      DssDeployment.collatStep_eq_some.mpr
        ⟨e.2.gem, e.2.adapter, p, e.2.flipper, hg, hj, hpl, hf, hres⟩
    rw [hstep]
    simp only [bind, Option.some_bind]
    have hacc' : ∀ e' ∈ cols, e'.1 ∉ dkeys (acc ++ [e]) := by
      intro e' he' hmem
      rw [show dkeys (acc ++ [e]) = dkeys acc ++ [e.1] from by simp [dkeys]] at hmem
      rcases List.mem_append.mp hmem with h' | h'
      · exact hacc e' (List.mem_cons_of_mem _ he') h'
      · simp only [List.mem_singleton] at h'
        rw [dkeys_cons, List.nodup_cons] at hnd
        exact hnd.1 (h' ▸ List.mem_map_of_mem Prod.fst he')
    rw [foldlM_reconstruct (fun e' he' => hall e' (List.mem_cons_of_mem _ he')) hacc'
      (by rw [dkeys_cons, List.nodup_cons] at hnd; exact hnd.2)]
    rw [List.append_assoc]
    rfl

/-- C1 (amended): the round trip holds under the serializable naming
convention — collaterals keyed by their ilk names; names nonempty,
alphanumeric-and-hyphen, starting alphanumerically, with at most one
hyphen and no trailing hyphen; no ilk named `DAI`; collaterals sharing
a gem symbol agreeing on gem and price feed; and every collateral
holding a price feed.  Then serializing with `to_json` and parsing
with `from_json` reconstructs the configuration exactly: every fixed
handle and the whole collateral table, key for key.  (As stated over
every config the claim is false, see the counterexample: two
collaterals sharing the symbol `ETH` with different gem addresses come
back both holding the second gem address.) -/
theorem claim_C1 (c : DssDeployment.Config) (h : c1Collaterals c)
    (hpip : ∀ e ∈ c.collaterals, e.2.pip ≠ none) :
    (DssDeployment.Config.to_json c).bind DssDeployment.Config.from_json = some c := by
  obtain ⟨hprops, hnodup, hcoh⟩ := h
  have hsimple : ∀ e ∈ c.collaterals, simpleIlkName e.2.ilk.name :=
    fun e he => ((hprops e he).2.1).1
  have hgood : goodCollaterals c :=
    ⟨fun e he => ⟨(hprops e he).1, ((hprops e he).2.1).1, (hprops e he).2.2⟩, hnodup, hcoh⟩
  obtain ⟨hfix, hlooks⟩ := DssDeployment.good_lookups hgood
  show (DssDeployment.Config.to_dict c).bind DssDeployment.Config.from_json = some c
  rw [DssDeployment.to_dict_eq hsimple, Option.some_bind]
  have ha : DssDeployment.readFixedA
      (DssDeployment.applyWrites c.fixedEntries (allWrites c.collaterals)) =
      some (DssDeployment.FixedA.mk c.pause c.vat c.vow c.jug c.cat c.dai c.dai_join
        c.flapper c.flopper c.pot) :=
    DssDeployment.readFixedA_eq_some.mpr
      ⟨(hfix "MCD_PAUSE" (by decide)).trans rfl, (hfix "MCD_VAT" (by decide)).trans rfl,
       (hfix "MCD_VOW" (by decide)).trans rfl, (hfix "MCD_JUG" (by decide)).trans rfl,
       (hfix "MCD_CAT" (by decide)).trans rfl, (hfix "MCD_DAI" (by decide)).trans rfl,
       (hfix "MCD_JOIN_DAI" (by decide)).trans rfl,
       (hfix "MCD_FLAP" (by decide)).trans rfl, (hfix "MCD_FLOP" (by decide)).trans rfl,
       (hfix "MCD_POT" (by decide)).trans rfl⟩
  have hb : DssDeployment.readFixedB
      (DssDeployment.applyWrites c.fixedEntries (allWrites c.collaterals)) =
      some (DssDeployment.FixedB.mk c.mkr c.spotter c.ds_chief c.esm c.end'
        c.proxy_registry c.dss_proxy_actions c.cdp_manager c.dsr_manager) :=
    DssDeployment.readFixedB_eq_some.mpr
      ⟨(hfix "MCD_GOV" (by decide)).trans rfl, (hfix "MCD_SPOT" (by decide)).trans rfl,
       (hfix "MCD_ADM" (by decide)).trans rfl, (hfix "MCD_ESM" (by decide)).trans rfl,
       (hfix "MCD_END" (by decide)).trans rfl,
       (hfix "PROXY_REGISTRY" (by decide)).trans rfl,
       (hfix "PROXY_ACTIONS_DSR" (by decide)).trans rfl,
       (hfix "CDP_MANAGER" (by decide)).trans rfl,
       (hfix "DSR_MANAGER" (by decide)).trans rfl⟩
  have hallD : ∀ e ∈ c.collaterals,
      e.1 = e.2.ilk.name ∧ '_' ∉ e.2.ilk.name.data ∧
      dlookup (DssDeployment.applyWrites c.fixedEntries (allWrites c.collaterals))
        (symbolOf e.2.ilk.name) = some e.2.gem ∧
      dlookup (DssDeployment.applyWrites c.fixedEntries (allWrites c.collaterals))
        ("MCD_JOIN_" ++ pyReplace e.2.ilk.name '-' '_') = some e.2.adapter ∧
      (∃ p, e.2.pip = some p ∧
        dlookup (DssDeployment.applyWrites c.fixedEntries (allWrites c.collaterals))
          ("PIP_" ++ symbolOf e.2.ilk.name) = some p) ∧
      dlookup (DssDeployment.applyWrites c.fixedEntries (allWrites c.collaterals))
        ("MCD_FLIP_" ++ pyReplace e.2.ilk.name '-' '_') = some e.2.flipper := by
    intro e he
    obtain ⟨hg', hpipsome, _, hj', hf'⟩ := hlooks e he
    refine ⟨(hprops e he).1, simple_no_underscore (hsimple e he), hg', hj', ?_, hf'⟩
    rcases hps : e.2.pip with _ | p
    · exact absurd hps (hpip e he)
    · exact ⟨p, rfl, hpipsome p hps⟩
  have hrc : DssDeployment.readCollaterals
      (DssDeployment.applyWrites c.fixedEntries (allWrites c.collaterals)) =
      some c.collaterals := by
    show (infer_collaterals_from_addresses
        (dkeys (DssDeployment.applyWrites c.fixedEntries (allWrites c.collaterals)))).foldlM
      (DssDeployment.collatStep
        (DssDeployment.applyWrites c.fixedEntries (allWrites c.collaterals))) [] =
      some c.collaterals
    rw [infer_to_dict hprops hnodup]
    rw [foldlM_reconstruct hallD (fun e he => List.not_mem_nil _) hnodup]
    rw [List.nil_append]
  exact DssDeployment.from_json_mk ha hb hrc

/-- Counterexample to C1 as stated: `cexC1` holds two collaterals with
gem symbol `ETH` but different gem addresses (`0xg1` and `0xg2`); the
serialized book has one `ETH` key holding `0xg2`, so the parsed config
maps the ilk name `ETH-A` to a collateral with a different gem address
than the original. -/
theorem claim_C1_counterexample :
    ((DssDeployment.Config.to_json cexC1).bind DssDeployment.Config.from_json).map
        (fun c => (dlookup c.collaterals "ETH-A").map Collateral.gem) ≠
      some ((dlookup cexC1.collaterals "ETH-A").map Collateral.gem) := by decide

/-- Witness for C1 at the concrete config `cfgW`. -/
theorem claim_C1_witness :
    c1Collaterals cfgW ∧ (∀ e ∈ cfgW.collaterals, e.2.pip ≠ none) ∧
    (DssDeployment.Config.to_json cfgW).bind DssDeployment.Config.from_json = some cfgW :=
  ⟨by decide, by decide, claim_C1 cfgW (by decide) (by decide)⟩

/-- C8 (amended): under the naming convention of (amended) C1, a
collateral without a price feed makes the round trip fail: `to_dict`
still succeeds, but omits the collateral's `PIP_` key (no collateral
sharing that symbol can supply one, since same-symbol collaterals
agree on the price feed), and `from_json` on the resulting book
returns nothing because it unconditionally reads the `PIP_` key of
every inferred pair.  (As stated over every config the claim is false,
see the counterexample: next to a same-symbol collateral WITH a feed,
the `PIP_` key is written after all and parsing succeeds.) -/
theorem claim_C8 (c : DssDeployment.Config) (h : c1Collaterals c)
    (e : String × Collateral) (he : e ∈ c.collaterals) (hp : e.2.pip = none) :
    ∃ D, DssDeployment.Config.to_json c = some D ∧
      dlookup D ("PIP_" ++ symbolOf e.2.ilk.name) = none ∧
      DssDeployment.Config.from_json D = none := by
  obtain ⟨hprops, hnodup, hcoh⟩ := h
  have hsimple : ∀ e ∈ c.collaterals, simpleIlkName e.2.ilk.name :=
    fun e he => ((hprops e he).2.1).1
  have hgood : goodCollaterals c :=
    ⟨fun e he => ⟨(hprops e he).1, ((hprops e he).2.1).1, (hprops e he).2.2⟩, hnodup, hcoh⟩
  obtain ⟨hfix, hlooks⟩ := DssDeployment.good_lookups hgood
  refine ⟨DssDeployment.applyWrites c.fixedEntries (allWrites c.collaterals),
    DssDeployment.to_dict_eq hsimple, (hlooks e he).2.2.1 hp, ?_⟩
  apply DssDeployment.from_json_none_of_collats
  show (infer_collaterals_from_addresses
      (dkeys (DssDeployment.applyWrites c.fixedEntries (allWrites c.collaterals)))).foldlM
    (DssDeployment.collatStep
      (DssDeployment.applyWrites c.fixedEntries (allWrites c.collaterals))) [] = none
  rw [infer_to_dict hprops hnodup]
  exact DssDeployment.foldlM_none_of_mem
    (fun acc => DssDeployment.collatStep_none_of
      (Or.inr (Or.inr (Or.inl ((hlooks e he).2.2.1 hp)))) acc)
    (List.mem_map_of_mem _ he)

/-- Counterexample to C8 as stated: `cexC8` contains a collateral
(`ETH-A`) without a price feed, yet the round trip does not fail: the
same-symbol collateral `ETH-B` writes the `PIP_ETH` key, so `from_json`
finds every key it reads. -/
theorem claim_C8_counterexample :
    (∃ e ∈ cexC8.collaterals, e.2.pip = none) ∧
    (DssDeployment.Config.to_json cexC8).bind DssDeployment.Config.from_json ≠ none := by
  decide

/-- Witness for C8 at the concrete config `cfg8` (one `ETH-A`
collateral without a price feed). -/
theorem claim_C8_witness :
    c1Collaterals cfg8 ∧
    ∃ D, DssDeployment.Config.to_json cfg8 = some D ∧
      dlookup D ("PIP_" ++ symbolOf "ETH-A") = none ∧
      DssDeployment.Config.from_json D = none :=
  ⟨by decide, claim_C8 cfg8 (by decide)
    ("ETH-A", Collateral.mk (Ilk.mk "ETH-A") "0xg" "0xa1" "0xf1" none) (by decide) rfl⟩

end Pymaker
